import Mathlib

/-!
# Sentinel-based circular doubly-linked list (`src/lab.c`)

A shallow embedding of the five list operations of `lab.c` over an explicit
heap, and proofs of the properties the specification states about them.

Modelling conventions

* A pointer is a natural number; `NULL` is `0`.  Pointers that name allocated
  nodes are 64-bit values, which is recorded in the representation predicate.
* The heap is split by type: list structures, nodes, and the `list_t *`
  variables whose address `list_destroy` receives.
* Reading or writing through a pointer that is not allocated has no defined
  result in C; the embedding returns `none` there.
* `malloc` is not modelled as a function: each operation that allocates takes
  the pointer `malloc` returned as an argument (`NULL` on failure).
* `size_t` is 64 bits wide and `int` is 32 bits wide.  `size++` and `size--`
  are taken modulo `2 ^ 64`; the `int` counter of `list_indexof` wraps in two's
  complement, which is what the usual targets produce for the signed overflow
  that ISO C leaves undefined.
* The two unbounded `while` loops take a fuel argument; the theorems show
  that `size + 1` units of fuel always suffice on a well-formed list.
* Calls of the two callbacks are recorded in a trace.  The comparison callback
  is a pure function; the destroy callback is an uninterpreted function pointer.
-/

namespace Lab

/-- A machine address. -/
abbrev Ptr := Nat

/-- The null pointer. -/
abbrev NULL : Ptr := 0

/-- Number of values of a 64-bit `size_t` (and of a 64-bit pointer). -/
@[irreducible] def SIZE_MOD : Nat := 2 ^ 64

/-- Largest value of a 32-bit `int`. -/
abbrev INT_MAX : Int := 2147483647

/-- Modelled from the spec: the entry type `node_t` of the missing header
`lab.h` ("an owned reference to caller-supplied payload data, a link to the
next entry, a link to the previous entry"); the field names are the ones
`lab.c` uses. -/
structure node_t where
  data : Ptr
  next : Ptr
  prev : Ptr
deriving DecidableEq

/-- Modelled from the spec: the container type `list_t` of the missing header
`lab.h` ("a sentinel entry, a count of live entries, an optional
destroy-callback, an optional comparison-callback"); the field names are the
ones `lab.c` uses.  `destroy_data` is a function pointer (`NULL` when absent),
`compare_to` is `none` when absent. -/
structure list_t where
  destroy_data : Ptr
  compare_to : Option (Ptr → Ptr → Int)
  size : Nat
  head : Ptr

/-- An observable call of one of the two callbacks. -/
inductive Event where
  | destroy (fn : Ptr) (arg : Ptr)
  | compare (a : Ptr) (b : Ptr)
deriving DecidableEq

/-- The program state: the three typed heaps and the trace of callback calls. -/
structure State where
  lists : Ptr → Option list_t
  nodes : Ptr → Option node_t
  refs : Ptr → Option Ptr
  trace : List Event

/-- The state in which nothing is allocated. -/
def State.empty : State :=
  { lists := fun _ => none, nodes := fun _ => none, refs := fun _ => none, trace := [] }

/-- Overwrite (or, with `none`, deallocate) the node cell at `p`. -/
def State.setNode (s : State) (p : Ptr) (n : Option node_t) : State :=
  { s with nodes := fun a => if a = p then n else s.nodes a }

/-- Overwrite (or, with `none`, deallocate) the list structure at `p`. -/
def State.setList (s : State) (p : Ptr) (l : Option list_t) : State :=
  { s with lists := fun a => if a = p then l else s.lists a }

/-- Overwrite the `list_t *` variable at `p`. -/
def State.setRef (s : State) (p : Ptr) (v : Option Ptr) : State :=
  { s with refs := fun a => if a = p then v else s.refs a }

/-- Append a callback call to the trace. -/
def State.log (s : State) (e : Event) : State :=
  { s with trace := s.trace ++ [e] }

/-- Assignment `p->next = v`. -/
def storeNext (s : State) (p v : Ptr) : Option State :=
  (s.nodes p).map fun n => s.setNode p (some { n with next := v })

/-- Assignment `p->prev = v`. -/
def storePrev (s : State) (p v : Ptr) : Option State :=
  (s.nodes p).map fun n => s.setNode p (some { n with prev := v })

/-- Assignment `p->data = v`. -/
def storeData (s : State) (p v : Ptr) : Option State :=
  (s.nodes p).map fun n => s.setNode p (some { n with data := v })

/-- Assignment `p->size = v`. -/
def storeSize (s : State) (p : Ptr) (v : Nat) : Option State :=
  (s.lists p).map fun l => s.setList p (some { l with size := v })

/-- Call `free(p)` on a node pointer. -/
def freeNode (s : State) (p : Ptr) : Option State :=
  if p = NULL then some s else (s.nodes p).map fun _ => s.setNode p none

/-- Call `free(p)` on a list pointer. -/
def freeList (s : State) (p : Ptr) : Option State :=
  if p = NULL then some s else (s.lists p).map fun _ => s.setList p none

/-- Two's-complement wrap of an integer into the range of a 32-bit `int`. -/
def wrap_int (x : Int) : Int := (x + 2 ^ 31) % 2 ^ 32 - 2 ^ 31

/-! ## The operations of `lab.c` -/

/-- Embedding of `list_init` (lab.c:16-40).  `mlist` and `mhead` are the
results of the two `malloc` calls; the second call only happens when the first
succeeded.  The fields of the fresh list structure that the code has not yet
written (`size`, and `head` before the second `malloc`) are never read; the
embedding gives them their final values from the start. -/
def list_init (s : State) (destroy_data : Ptr) (compare_to : Option (Ptr → Ptr → Int))
    (mlist mhead : Ptr) : State × Ptr :=
  if mlist = NULL then (s, NULL) else
    -- list->destroy_data = destroy_data; list->compare_to = compare_to;
    let s1 := s.setList mlist (some ⟨destroy_data, compare_to, 0, mhead⟩)
    -- list->head = malloc(...)
    if mhead = NULL then (s1.setList mlist none, NULL) else
      -- head->data = NULL; head->next = head; head->prev = head; size = 0
      let s2 := s1.setNode mhead (some ⟨NULL, mhead, mhead⟩)
      (s2, mlist)

/-- The `while` loop of `list_destroy` (lab.c:57-68); `lp` is `*list`, which
the loop never writes. -/
def destroy_loop (lp : Ptr) : Nat → Ptr → State → Option State
  | 0, _, _ => none
  | fuel + 1, current, s => do
    let l ← s.lists lp
    if current = l.head then some s else do
      let n ← s.nodes current
      let s1 := if l.destroy_data ≠ NULL then s.log (.destroy l.destroy_data n.data) else s
      let s2 ← freeNode s1 current
      destroy_loop lp fuel n.next s2

/-- Embedding of `list_destroy` (lab.c:48-76).  `list` is the address of the
caller's `list_t *` variable. -/
def list_destroy (fuel : Nat) (s : State) (list : Ptr) : Option State :=
  if list = NULL then some s else do
    let lp ← s.refs list
    if lp = NULL then some s else do
      let l ← s.lists lp
      let h ← s.nodes l.head
      let s1 ← destroy_loop lp fuel h.next s
      let l1 ← s1.lists lp
      let s2 ← freeNode s1 l1.head
      let s3 ← freeList s2 lp
      some (s3.setRef list (some NULL))

/-- Embedding of `list_add` (lab.c:85-109).  `m` is the result of the
`malloc` call; the fresh node starts with placeholder fields, which the code
overwrites before it reads them. -/
def list_add (s : State) (list data : Ptr) (m : Ptr) : Option (State × Ptr) :=
  if list = NULL then some (s, NULL) else
  if m = NULL then some (s, NULL) else do
    let s0 := s.setNode m (some ⟨NULL, NULL, NULL⟩)
    -- new_node->data = data;
    let s1 ← storeData s0 m data
    -- new_node->next = list->head->next;
    let l ← s1.lists list
    let h ← s1.nodes l.head
    let s2 ← storeNext s1 m h.next
    -- new_node->prev = list->head;
    let s3 ← storePrev s2 m l.head
    -- list->head->next->prev = new_node;
    let h3 ← s3.nodes l.head
    let s4 ← storePrev s3 h3.next m
    -- list->head->next = new_node;
    let s5 ← storeNext s4 l.head m
    -- list->size++;
    let l5 ← s5.lists list
    let s6 ← storeSize s5 list ((l5.size + 1) % SIZE_MOD)
    some (s6, list)

/-- The `for` loop of `list_remove_index` (lab.c:128-130): `index` hops along
`next`. -/
def advance (s : State) : Nat → Ptr → Option Ptr
  | 0, current => some current
  | k + 1, current => do
    let n ← s.nodes current
    advance s k n.next

/-- The sole-entry special case of `list_remove_index` (lab.c:136-139):
`if (list->size == 1) { head->next = head; head->prev = head; }`. -/
def sole_entry_reset (s : State) (list : Ptr) : Option State := do
  let l ← s.lists list
  if l.size = 1 then do
    let t ← storeNext s l.head l.head
    storePrev t l.head l.head
  else some s

/-- Embedding of `list_remove_index` (lab.c:119-151). -/
def list_remove_index (s : State) (list : Ptr) (index : Nat) : Option (State × Ptr) :=
  if list = NULL then some (s, NULL) else do
    let l ← s.lists list
    if index ≥ l.size then some (s, NULL) else do
      let h ← s.nodes l.head
      let current ← advance s index h.next
      -- current->prev->next = current->next;
      let c ← s.nodes current
      let s1 ← storeNext s c.prev c.next
      -- current->next->prev = current->prev;
      let c1 ← s1.nodes current
      let s2 ← storePrev s1 c1.next c1.prev
      -- if (list->size == 1) { head->next = head; head->prev = head; }
      let s3 ← sole_entry_reset s2 list
      let c3 ← s3.nodes current
      let data := c3.data
      let s4 ← freeNode s3 current
      -- list->size--;
      let l4 ← s4.lists list
      let s5 ← storeSize s4 list ((l4.size + SIZE_MOD - 1) % SIZE_MOD)
      some (s5, data)

/-- The `while` loop of `list_indexof` (lab.c:173-180) together with the
`return -1` that follows it. -/
def indexof_loop (list data : Ptr) : Nat → Ptr → Int → State → Option (State × Int)
  | 0, _, _, _ => none
  | fuel + 1, current, index, s => do
    let l ← s.lists list
    if current = l.head then some (s, -1) else do
      let n ← s.nodes current
      let cmp ← l.compare_to
      let s1 := s.log (.compare n.data data)
      if cmp n.data data = 0 then some (s1, index)
      else indexof_loop list data fuel n.next (wrap_int (index + 1)) s1

/-- Embedding of `list_indexof` (lab.c:163-184). -/
def list_indexof (fuel : Nat) (s : State) (list data : Ptr) : Option (State × Int) :=
  if list = NULL then some (s, -1) else do
    let l ← s.lists list
    if l.size = 0 then some (s, -1) else do
      let h ← s.nodes l.head
      indexof_loop list data fuel h.next 0 s

/-! ## Well-formed lists -/

/-- Address of the first entry of a segment, or `q` when the segment is empty. -/
def firstOf (cells : List (Ptr × Ptr)) (q : Ptr) : Ptr :=
  match cells with
  | [] => q
  | c :: _ => c.1

/-- Address of the last entry of a segment, or `p` when the segment is empty. -/
def lastOf (p : Ptr) : List (Ptr × Ptr) → Ptr
  | [] => p
  | c :: rest => lastOf c.1 rest

/-- The nodes at the addresses of `cells` (pairs of address and payload) form a
doubly-linked segment that is entered from `p` and left towards `q`. -/
def Seg (nodes : Ptr → Option node_t) : Ptr → List (Ptr × Ptr) → Ptr → Prop
  | _, [], _ => True
  | p, c :: rest, q => nodes c.1 = some ⟨c.2, firstOf rest q, p⟩ ∧ Seg nodes c.1 rest q

/-- The list structure at `list` is `l` and it is a well-formed ring: the
sentinel `l.head` followed front-to-back by the entries `cells` (address and
payload of each), closed in both directions, with `size` the number of entries.
All ring nodes are distinct, non-null 64-bit addresses. -/
structure RingRep (s : State) (list : Ptr) (l : list_t) (cells : List (Ptr × Ptr)) : Prop where
  list_ne : list ≠ NULL
  hlist : s.lists list = some l
  hsize : l.size = cells.length
  hhead : s.nodes l.head = some ⟨NULL, firstOf cells l.head, lastOf l.head cells⟩
  hseg : Seg s.nodes l.head cells l.head
  nodup : (l.head :: cells.map Prod.fst).Nodup
  bound : ∀ a ∈ l.head :: cells.map Prod.fst, a ≠ NULL ∧ a < SIZE_MOD

/-- What a successful `malloc` of a node returns: a non-null 64-bit address
that is not allocated. -/
def FreshNode (s : State) (m : Ptr) : Prop :=
  m ≠ NULL ∧ m < SIZE_MOD ∧ s.nodes m = none

/-- What a successful `malloc` of a list structure returns. -/
def FreshList (s : State) (m : Ptr) : Prop :=
  m ≠ NULL ∧ m < SIZE_MOD ∧ s.lists m = none

/-- Walk along `next` from `current` until `stop`, at most `fuel + 1` nodes,
collecting the payloads. -/
def collect (s : State) (stop : Ptr) : Nat → Ptr → Option (List Ptr)
  | 0, current => if current = stop then some [] else none
  | fuel + 1, current =>
    if current = stop then some [] else do
      let n ← s.nodes current
      let rest ← collect s stop fuel n.next
      some (n.data :: rest)

/-- The front-to-back payload sequence of the list at `list`: the payloads met
from `head->next` along `next` until the sentinel is reached again, within
`size` hops. -/
def payloads (s : State) (list : Ptr) : Option (List Ptr) := do
  let l ← s.lists list
  let h ← s.nodes l.head
  collect s l.head l.size h.next

/-- The value of `list->size`. -/
def sizeOf (s : State) (list : Ptr) : Option Nat :=
  (s.lists list).map fun l => l.size

/-- Append a sequence of callback calls to the trace. -/
def State.logAll (s : State) (evs : List Event) : State :=
  { s with trace := s.trace ++ evs }

/-- The value of the `int` counter after `k` executions of `index++` from `i`. -/
def bump : Nat → Int → Int
  | 0, i => i
  | k + 1, i => bump k (wrap_int (i + 1))

/-- The calls of the destroy callback that `list_destroy` makes for the entries `cells`. -/
def destroyCalls (l : list_t) (cells : List (Ptr × Ptr)) : List Event :=
  if l.destroy_data ≠ NULL then cells.map (fun c => Event.destroy l.destroy_data c.2) else []

/-- A run of `list_add` calls that all succeed: the entry `(m, x)` adds the
payload `x`, with `malloc` returning `m`. -/
def add_all (s : State) (list : Ptr) : List (Ptr × Ptr) → Option State
  | [] => some s
  | c :: rest => do
    let r ← list_add s list c.2 c.1
    if r.2 = list then add_all r.1 list rest else none

/-- A comparison callback: the difference of the two payload references. -/
def cmp_ptr : Ptr → Ptr → Int := fun a b => (a : Int) - (b : Int)

/-- The list of the specification's scenario, after `add(A)`, `add(B)`,
`add(C)` with `A = 100`, `B = 200`, `C = 300`: the list structure is at address
`1`, the sentinel at `10`, the entries at `11`, `12`, `13`, and the caller's
variable holding the list is at address `2`. -/
def scenario : State where
  lists := fun a => if a = 1 then some ⟨5, some cmp_ptr, 3, 10⟩ else none
  nodes := fun a =>
    if a = 10 then some ⟨NULL, 13, 11⟩
    else if a = 13 then some ⟨300, 12, 10⟩
    else if a = 12 then some ⟨200, 11, 13⟩
    else if a = 11 then some ⟨100, 10, 12⟩
    else none
  refs := fun a => if a = 2 then some 1 else none
  trace := []

/-- The list structure of `scenario`. -/
def scenarioList : list_t := ⟨5, some cmp_ptr, 3, 10⟩

/-- The entries of `scenario`, front to back. -/
def scenarioCells : List (Ptr × Ptr) := [(13, 300), (12, 200), (11, 100)]


/-- The `list_add` calls that build the long list: payload `9` first (it ends
up last), then `k` times payload `7`, at the node addresses `2, 3, ..., k + 2`. -/
def bigAdds (k : Nat) : List (Ptr × Ptr) :=
  (2, 9) :: (List.range k).map (fun j => (j + 3, 7))

/-- The entries of the long list, front to back: `k` entries with payload `7`
followed by the entry with payload `9`. -/
def bigCells (k : Nat) : List (Ptr × Ptr) :=
  ((List.range k).map (fun j => (j + 3, 7))).reverse ++ [(2, 9)]

/-- The empty list from which the long list is built: list structure at
address `1`, sentinel at node address `1`, comparison callback `cmp_ptr`. -/
def bigInit : State := (list_init State.empty NULL (some cmp_ptr) 1 1).1

/-- Follow `prev` links `k` times. -/
def retreat (s : State) : Nat → Ptr → Option Ptr
  | 0, current => some current
  | k + 1, current => do
    let n ← s.nodes current
    retreat s k n.prev

/-- The ring invariants of the specification, read off the heap: the list
pointer is not null and points to a list structure whose sentinel holds a null
payload; following `next` from the sentinel returns to the sentinel after
exactly `size + 1` hops and not before, and likewise following `prev`; the
nodes met on the way are pairwise distinct (so `size` counts the non-sentinel
entries); each of them is a non-null 64-bit address of an allocated node `e`
with `e.next.prev == e` and `e.prev.next == e`. -/
def RingInv (s : State) (list : Ptr) : Prop :=
  list ≠ NULL ∧ ∃ l h, s.lists list = some l ∧ s.nodes l.head = some h ∧ h.data = NULL ∧
    advance s (l.size + 1) l.head = some l.head ∧
    (∀ k, 0 < k → k ≤ l.size → advance s k l.head ≠ some l.head) ∧
    retreat s (l.size + 1) l.head = some l.head ∧
    (∀ k, 0 < k → k ≤ l.size → retreat s k l.head ≠ some l.head) ∧
    (∀ j k, j < k → k ≤ l.size → advance s j l.head ≠ advance s k l.head) ∧
    (∀ k e, k ≤ l.size → advance s k l.head = some e →
      e ≠ NULL ∧ e < SIZE_MOD ∧
      ∃ n nn np, s.nodes e = some n ∧ s.nodes n.next = some nn ∧ nn.prev = e ∧
        s.nodes n.prev = some np ∧ np.next = e)

/-- The list at `list` is well formed: it has a ring representation. -/
def WellFormed (s : State) (list : Ptr) : Prop :=
  ∃ l cells, RingRep s list l cells

/-- The entries met on a walk of `k` hops along `next` from `current`. -/
def ringCells (s : State) : Nat → Ptr → List (Ptr × Ptr)
  | 0, _ => []
  | k + 1, current =>
    match s.nodes current with
    | none => []
    | some n => (current, n.data) :: ringCells s k n.next

/-- An empty list without callbacks: list structure at address `1`, sentinel
at node address `10`, neither a destroy nor a comparison callback configured. -/
def emptyNoCallbacks : State := (list_init State.empty NULL none 1 10).1

/-- The variant of `list_remove_index` that the specification describes as
equivalent: the code of lab.c:119-151 with the sole-entry special case
`if (list->size == 1) { ... }` (lab.c:136-139) removed, so that only the
general relinking `prev->next = next; next->prev = prev` is performed. -/
def list_remove_index_general (s : State) (list : Ptr) (index : Nat) : Option (State × Ptr) :=
  if list = NULL then some (s, NULL) else do
    let l ← s.lists list
    if index ≥ l.size then some (s, NULL) else do
      let h ← s.nodes l.head
      let current ← advance s index h.next
      -- current->prev->next = current->next;
      let c ← s.nodes current
      let s1 ← storeNext s c.prev c.next
      -- current->next->prev = current->prev;
      let c1 ← s1.nodes current
      let s2 ← storePrev s1 c1.next c1.prev
      let c3 ← s2.nodes current
      let data := c3.data
      let s4 ← freeNode s2 current
      -- list->size--;
      let l4 ← s4.lists list
      let s5 ← storeSize s4 list ((l4.size + SIZE_MOD - 1) % SIZE_MOD)
      some (s5, data)

/-- A list with a single entry: list structure at address `1`, sentinel at
`10`, the entry at `11` holding the payload `x`; destroy callback `5`,
comparison callback `cmp`. -/
def soleEntry (cmp : Option (Ptr → Ptr → Int)) (x : Ptr) : State where
  lists := fun a => if a = 1 then some ⟨5, cmp, 1, 10⟩ else none
  nodes := fun a =>
    if a = 10 then some ⟨NULL, 11, 11⟩
    else if a = 11 then some ⟨x, 10, 10⟩
    else none
  refs := fun a => if a = 2 then some 1 else none
  trace := []

/-! ## State bookkeeping -/

@[simp] theorem setNode_nodes (s : State) (p : Ptr) (n : Option node_t) (a : Ptr) :
    (s.setNode p n).nodes a = if a = p then n else s.nodes a := rfl

@[simp] theorem setNode_lists (s : State) (p : Ptr) (n : Option node_t) :
    (s.setNode p n).lists = s.lists := rfl

@[simp] theorem setNode_refs (s : State) (p : Ptr) (n : Option node_t) :
    (s.setNode p n).refs = s.refs := rfl

@[simp] theorem setNode_trace (s : State) (p : Ptr) (n : Option node_t) :
    (s.setNode p n).trace = s.trace := rfl

@[simp] theorem setList_lists (s : State) (p : Ptr) (l : Option list_t) (a : Ptr) :
    (s.setList p l).lists a = if a = p then l else s.lists a := rfl

@[simp] theorem setList_nodes (s : State) (p : Ptr) (l : Option list_t) :
    (s.setList p l).nodes = s.nodes := rfl

@[simp] theorem setList_refs (s : State) (p : Ptr) (l : Option list_t) :
    (s.setList p l).refs = s.refs := rfl

@[simp] theorem setList_trace (s : State) (p : Ptr) (l : Option list_t) :
    (s.setList p l).trace = s.trace := rfl

@[simp] theorem setRef_refs (s : State) (p : Ptr) (v : Option Ptr) (a : Ptr) :
    (s.setRef p v).refs a = if a = p then v else s.refs a := rfl

@[simp] theorem setRef_nodes (s : State) (p : Ptr) (v : Option Ptr) :
    (s.setRef p v).nodes = s.nodes := rfl

@[simp] theorem setRef_lists (s : State) (p : Ptr) (v : Option Ptr) :
    (s.setRef p v).lists = s.lists := rfl

@[simp] theorem setRef_trace (s : State) (p : Ptr) (v : Option Ptr) :
    (s.setRef p v).trace = s.trace := rfl

@[simp] theorem log_nodes (s : State) (e : Event) : (s.log e).nodes = s.nodes := rfl

@[simp] theorem log_lists (s : State) (e : Event) : (s.log e).lists = s.lists := rfl

@[simp] theorem log_refs (s : State) (e : Event) : (s.log e).refs = s.refs := rfl

@[simp] theorem log_trace (s : State) (e : Event) : (s.log e).trace = s.trace ++ [e] := rfl

theorem State.ext_fields {s t : State} (h1 : s.lists = t.lists) (h2 : s.nodes = t.nodes)
    (h3 : s.refs = t.refs) (h4 : s.trace = t.trace) : s = t := by
  cases s; cases t; simp_all

/-! ## Segments -/

@[simp] theorem firstOf_nil (q : Ptr) : firstOf [] q = q := rfl

@[simp] theorem firstOf_cons (c : Ptr × Ptr) (rest : List (Ptr × Ptr)) (q : Ptr) :
    firstOf (c :: rest) q = c.1 := rfl

@[simp] theorem lastOf_nil (p : Ptr) : lastOf p [] = p := rfl

@[simp] theorem lastOf_cons (p : Ptr) (c : Ptr × Ptr) (rest : List (Ptr × Ptr)) :
    lastOf p (c :: rest) = lastOf c.1 rest := rfl

theorem lastOf_append_singleton (p : Ptr) (xs : List (Ptr × Ptr)) (c : Ptr × Ptr) :
    lastOf p (xs ++ [c]) = c.1 := by
  induction xs generalizing p with
  | nil => rfl
  | cons x xs ih => simpa using ih x.1

/-- A segment only depends on the nodes at its own addresses. -/
theorem Seg.frame {nodes nodes2 : Ptr → Option node_t} :
    ∀ {cells : List (Ptr × Ptr)} {p q : Ptr},
      (∀ a ∈ cells.map Prod.fst, nodes2 a = nodes a) → Seg nodes p cells q → Seg nodes2 p cells q
  | [], _, _, _, _ => trivial
  | c :: rest, _, q, hfr, h => by
    refine ⟨?_, Seg.frame (fun a ha => hfr a (by simp only [List.map_cons, List.mem_cons]; right; exact ha)) h.2⟩
    rw [hfr c.1 (by simp)]; exact h.1

/-- A pigeonhole bound: distinct addresses below `SIZE_MOD` are at most `SIZE_MOD` many. -/
theorem nodup_length_le (xs : List Ptr) (hn : xs.Nodup) (hb : ∀ a ∈ xs, a < SIZE_MOD) :
    xs.length ≤ SIZE_MOD := by
  have h1 : xs.toFinset ⊆ Finset.range SIZE_MOD := by
    intro a ha
    simp only [List.mem_toFinset] at ha
    exact Finset.mem_range.mpr (hb a ha)
  have h2 := Finset.card_le_card h1
  rw [List.toFinset_card_of_nodup hn, Finset.card_range] at h2
  exact h2

/-- Distinct non-null addresses below `SIZE_MOD` are fewer than `SIZE_MOD`. -/
theorem nodup_length_lt (xs : List Ptr) (hn : xs.Nodup)
    (hb : ∀ a ∈ xs, a ≠ NULL ∧ a < SIZE_MOD) : xs.length < SIZE_MOD := by
  have h0 : (0 :: xs).Nodup := by
    refine List.nodup_cons.mpr ⟨fun h => (hb 0 h).1 rfl, hn⟩
  have := nodup_length_le (0 :: xs) h0 (by
    intro a ha
    rcases List.mem_cons.mp ha with h | h
    · subst h; unfold SIZE_MOD; exact Nat.pos_of_ne_zero (by decide)
    · exact (hb a h).2)
  simpa using this

/-- Every entry of a segment is allocated. -/
theorem Seg.allocated {nodes : Ptr → Option node_t} :
    ∀ {cells : List (Ptr × Ptr)} {p q : Ptr}, Seg nodes p cells q →
      ∀ a ∈ cells.map Prod.fst, nodes a ≠ none
  | [], _, _, _, a, ha => by simp at ha
  | c :: rest, _, q, h, a, ha => by
    simp only [List.map_cons, List.mem_cons] at ha
    rcases ha with ha | ha
    · rw [ha, h.1]; simp
    · exact Seg.allocated h.2 a ha

theorem RingRep.fresh_not_mem {s : State} {list : Ptr} {l : list_t} {cells : List (Ptr × Ptr)}
    (h : RingRep s list l cells) {m : Ptr} (hm : s.nodes m = none) :
    m ∉ l.head :: cells.map Prod.fst := by
  intro hmem
  rcases List.mem_cons.mp hmem with e | e
  · rw [e, h.hhead] at hm; simp at hm
  · exact Seg.allocated h.hseg m e hm

theorem lastOf_append (p : Ptr) (xs ys : List (Ptr × Ptr)) :
    lastOf p (xs ++ ys) = lastOf (lastOf p xs) ys := by
  induction xs generalizing p with
  | nil => rfl
  | cons x xs ih => simpa using ih x.1

theorem firstOf_append (xs ys : List (Ptr × Ptr)) (q : Ptr) :
    firstOf (xs ++ ys) q = firstOf xs (firstOf ys q) := by
  cases xs <;> rfl

/-- A segment splits at any point into two segments. -/
theorem Seg.append_iff {nodes : Ptr → Option node_t} :
    ∀ {xs ys : List (Ptr × Ptr)} {p q : Ptr},
      Seg nodes p (xs ++ ys) q ↔ Seg nodes p xs (firstOf ys q) ∧ Seg nodes (lastOf p xs) ys q
  | [], ys, p, q => by simp [Seg]
  | x :: xs, ys, p, q => by
    have ih := @Seg.append_iff nodes xs ys x.1 q
    show (nodes x.1 = some ⟨x.2, firstOf (xs ++ ys) q, p⟩ ∧ Seg nodes x.1 (xs ++ ys) q) ↔
      (nodes x.1 = some ⟨x.2, firstOf xs (firstOf ys q), p⟩ ∧ Seg nodes x.1 xs (firstOf ys q)) ∧
        Seg nodes (lastOf x.1 xs) ys q
    rw [ih, firstOf_append, and_assoc]

/-- The positional walk of `list_remove_index` reaches the entry at the index. -/
theorem advance_seg {s : State} :
    ∀ {pre : List (Ptr × Ptr)} {c : Ptr × Ptr} {post : List (Ptr × Ptr)} {p q : Ptr},
      Seg s.nodes p (pre ++ c :: post) q →
        advance s pre.length (firstOf (pre ++ c :: post) q) = some c.1
  | [], _, _, _, _, _ => rfl
  | x :: xs, c, post, p, q, h => by
    have ih := @advance_seg s xs c post x.1 q h.2
    simp only [List.cons_append, firstOf_cons, List.length_cons, advance]
    rw [h.1]
    simpa using ih

/-! ## `list_init` and `list_add` on well-formed lists -/

theorem list_init_rep (s : State) (d : Ptr) (cmp : Option (Ptr → Ptr → Int)) (ml mh : Ptr)
    (hl : FreshList s ml) (hh : FreshNode s mh) :
    (list_init s d cmp ml mh).2 = ml ∧
      RingRep (list_init s d cmp ml mh).1 ml ⟨d, cmp, 0, mh⟩ [] := by
  obtain ⟨hl0, hl1, hl2⟩ := hl
  obtain ⟨hh0, hh1, hh2⟩ := hh
  have e : list_init s d cmp ml mh =
      ((s.setList ml (some ⟨d, cmp, 0, mh⟩)).setNode mh (some ⟨NULL, mh, mh⟩), ml) := by
    simp [list_init, hl0, hh0]
  rw [e]
  refine ⟨rfl, ⟨hl0, by simp, rfl, by simp, trivial, by simp, ?_⟩⟩
  intro a ha
  simp at ha
  subst ha
  exact ⟨hh0, hh1⟩

theorem list_add_rep {s : State} {list : Ptr} {l : list_t} {cells : List (Ptr × Ptr)}
    (h : RingRep s list l cells) (x m : Ptr) (hm : FreshNode s m) :
    ∃ s2, list_add s list x m = some (s2, list) ∧
      RingRep s2 list { l with size := l.size + 1 } ((m, x) :: cells) ∧
      s2.trace = s.trace ∧ s2.refs = s.refs ∧ (∀ p, p ≠ list → s2.lists p = s.lists p) ∧
      (∀ a, a ∉ m :: l.head :: cells.map Prod.fst → s2.nodes a = s.nodes a) := by
  obtain ⟨hm0, hm1, hm2⟩ := hm
  have hnm := h.fresh_not_mem hm2
  have hnd : (m :: l.head :: cells.map Prod.fst).Nodup := List.nodup_cons.mpr ⟨hnm, h.nodup⟩
  have hbd : ∀ a ∈ m :: l.head :: cells.map Prod.fst, a ≠ NULL ∧ a < SIZE_MOD := by
    intro a ha
    rcases List.mem_cons.mp ha with e | e
    · subst e; exact ⟨hm0, hm1⟩
    · exact h.bound a e
  have hlen := nodup_length_lt _ hnd hbd
  simp only [List.length_cons, List.length_map] at hlen
  have hsz : (l.size + 1) % SIZE_MOD = l.size + 1 := by
    rw [h.hsize]; exact Nat.mod_eq_of_lt (by omega)
  have hmh : m ≠ l.head := fun e => hnm (by rw [e]; simp)
  have hhm : l.head ≠ m := fun e => hmh e.symm
  have hl := h.hlist
  have hh := h.hhead
  have hln := h.list_ne
  cases cells with
  | nil =>
    simp only [firstOf_nil, lastOf_nil] at hh
    simp [list_add, hln, hm0, storeData, storeNext, storePrev, storeSize, hl, hh, hmh, hhm, hsz]
    refine ⟨⟨hln, by simp, by simp [h.hsize], by simp [hhm], ?_, by simpa using hmh.symm, ?_⟩, ?_, ?_⟩
    · simp [Seg, hmh]
    · intro a ha; apply hbd
      rcases List.mem_cons.mp ha with e | e
      · exact List.mem_cons_of_mem _ (by rw [e]; exact List.mem_cons_self _ _)
      · rcases List.mem_cons.mp e with e2 | e2
        · rw [e2]; exact List.mem_cons_self _ _
        · exact List.mem_cons_of_mem _ (List.mem_cons_of_mem _ e2)
    · intro p hp hp2; exact absurd hp2 hp
    · intro a h1 h2
      simp [h1, h2]
  | cons c rest =>
    obtain ⟨hc, hrest⟩ := h.hseg
    simp only [firstOf_cons] at hh
    have hnd2 := h.nodup
    rw [List.map_cons, List.nodup_cons, List.nodup_cons] at hnd2
    have hcm : c.1 ≠ m := by
      intro e; apply hnm; rw [← e]; simp
    have hch : c.1 ≠ l.head := by
      intro e; apply hnd2.1; rw [← e]; simp
    have hhc : l.head ≠ c.1 := fun e => hch e.symm
    simp [list_add, hln, hm0, storeData, storeNext, storePrev, storeSize, hl, hh, hmh, hhm, hsz, hc, hcm, hch, hhc]
    refine ⟨⟨hln, by simp, by simp [h.hsize], by simp [hhm], ?_, ?_, ?_⟩, ?_, ?_⟩
    · refine ⟨by simp [hmh, hcm.symm], by simp [hch], ?_⟩
      refine Seg.frame ?_ hrest
      intro a ha
      have h1 : a ≠ l.head := by
        intro e; rw [e] at ha; exact hnd2.1 (List.mem_cons_of_mem _ ha)
      have h2 : a ≠ c.1 := by
        intro e; rw [e] at ha; exact hnd2.2.1 ha
      have h3 : a ≠ m := by
        intro e; rw [e] at ha; exact hnm (List.mem_cons_of_mem _ (List.mem_cons_of_mem _ ha))
      simp [h1, h2, h3]
    · exact (List.Perm.swap _ _ _).nodup_iff.mp hnd
    · intro a ha; apply hbd
      rcases List.mem_cons.mp ha with e | e
      · exact List.mem_cons_of_mem _ (by rw [e]; exact List.mem_cons_self _ _)
      · rcases List.mem_cons.mp e with e2 | e2
        · rw [e2]; exact List.mem_cons_self _ _
        · exact List.mem_cons_of_mem _ (List.mem_cons_of_mem _ e2)
    · intro p hp hp2; exact absurd hp2 hp
    · intro a h1 h2 h3 _
      simp [h1, h2, h3]

/-! ## `list_remove_index` on well-formed lists -/

theorem list_remove_index_rep {s : State} {list : Ptr} {l : list_t}
    (pre : List (Ptr × Ptr)) (c : Ptr × Ptr) (post : List (Ptr × Ptr))
    (h : RingRep s list l (pre ++ c :: post)) :
    ∃ s2, list_remove_index s list pre.length = some (s2, c.2) ∧
      RingRep s2 list { l with size := l.size - 1 } (pre ++ post) ∧
      s2.trace = s.trace ∧ s2.refs = s.refs ∧ (∀ p, p ≠ list → s2.lists p = s.lists p) ∧
      (∀ a, a ∉ l.head :: (pre ++ c :: post).map Prod.fst → s2.nodes a = s.nodes a) := by
  have hln := h.list_ne
  have hl := h.hlist
  have hh := h.hhead
  have hsz := h.hsize
  have hnd := h.nodup
  have hbd := h.bound
  have hlen := nodup_length_lt _ h.nodup h.bound
  simp only [List.length_cons, List.length_map, List.length_append] at hlen hsz
  have hidx : ¬ (pre.length ≥ l.size) := by omega
  have hdec : (l.size + SIZE_MOD - 1) % SIZE_MOD = l.size - 1 := by
    have e : l.size + SIZE_MOD - 1 = (l.size - 1) + SIZE_MOD := by omega
    rw [e, Nat.add_mod_right]; exact Nat.mod_eq_of_lt (by omega)
  have hadv := advance_seg h.hseg
  obtain ⟨hpre, hc, hpost⟩ := Seg.append_iff.mp h.hseg
  simp only [firstOf_cons] at hpre
  have hcn : c.1 ≠ NULL := (hbd c.1 (by simp)).1
  have hmid : (c.1 :: l.head :: (pre ++ post).map Prod.fst).Nodup := by
    have e : l.head :: (pre ++ c :: post).map Prod.fst
        = (l.head :: pre.map Prod.fst) ++ c.1 :: post.map Prod.fst := by simp
    rw [e, List.nodup_middle] at hnd
    simpa using hnd
  have hnd2 : (l.head :: (pre ++ post).map Prod.fst).Nodup := (List.nodup_cons.mp hmid).2
  have hcnot : ∀ a ∈ l.head :: (pre ++ post).map Prod.fst, a ≠ c.1 := by
    intro a ha e; rw [e] at ha; exact (List.nodup_cons.mp hmid).1 ha
  have hbd2 : ∀ a ∈ l.head :: (pre ++ post).map Prod.fst, a ≠ NULL ∧ a < SIZE_MOD := by
    intro a ha; apply hbd
    simp only [List.map_append, List.mem_cons, List.mem_append, List.map_cons] at ha ⊢
    tauto
  have hhc : l.head ≠ c.1 := hcnot _ (List.mem_cons_self _ _)
  have hch : c.1 ≠ l.head := fun e => hhc e.symm
  rcases List.eq_nil_or_concat pre with hp | ⟨xs, y, hp⟩
  · subst hp
    cases post with
    | nil =>
      simp only [List.nil_append, firstOf_cons, lastOf_cons, lastOf_nil, firstOf_nil] at hh hc hadv
      simp only [List.nil_append, List.map_cons, List.map_nil, List.nodup_cons, List.mem_singleton] at hnd
      have hhc : l.head ≠ c.1 := hnd.1
      have hch : c.1 ≠ l.head := fun e => hhc e.symm
      have hs1 : l.size = 1 := by simpa using hsz
      have hadv2 : advance s 0 c.1 = some c.1 := rfl
      have hne : ¬ (0 ≥ l.size) := by omega
      simp only [list_remove_index, sole_entry_reset, storeNext, storePrev, storeSize, freeNode,
        Option.bind_eq_bind, Option.some_bind, Option.map_some', setNode_nodes, setNode_lists,
        setList_lists, setList_nodes, List.length_nil,
        hln, hl, hne, hh, hadv2, hc, hhc, hch, hcn, if_pos hs1, hdec, if_true, if_false, ↓reduceIte]
      refine ⟨_, rfl, ⟨hln, by simp, by simp [hs1], by simp [hhc], trivial, by simp, ?_⟩, rfl, rfl, ?_, ?_⟩
      · intro a ha; exact hbd a (by simp at ha ⊢; left; exact ha)
      · intro p hp; simp [hp]
      · intro a ha
        simp only [List.map_append, List.map_cons, List.map_nil, List.mem_cons, List.mem_append,
          List.mem_singleton, not_or] at ha
        simp [ha]
    | cons z zs =>
      simp only [List.nil_append, firstOf_cons, lastOf_cons, lastOf_nil, firstOf_nil] at hh hc hadv
      obtain ⟨hz, hzs⟩ := hpost
      simp only [List.nil_append, List.map_cons] at hnd2 hcnot hbd2
      have hzc : z.1 ≠ c.1 := hcnot _ (by simp)
      have hcz : c.1 ≠ z.1 := fun e => hzc e.symm
      have hhz : l.head ≠ z.1 := by
        intro e; apply (List.nodup_cons.mp hnd2).1; rw [← e]; simp
      have hzh : z.1 ≠ l.head := fun e => hhz e.symm
      have hadv2 : advance s 0 c.1 = some c.1 := rfl
      have hne : ¬ (0 ≥ l.size) := by omega
      have hs1 : ¬ l.size = 1 := by simp at hsz; omega
      simp only [list_remove_index, sole_entry_reset, storeNext, storePrev, storeSize, freeNode,
        Option.bind_eq_bind, Option.some_bind, Option.map_some', setNode_nodes, setNode_lists,
        setList_lists, setList_nodes, List.length_nil,
        hln, hl, hne, hh, hadv2, hc, hz, hhc, hch, hcn, hzc, hcz, hhz, hzh, if_neg hs1, hdec,
        if_true, if_false, ↓reduceIte]
      refine ⟨_, rfl, ⟨hln, by simp, by simp at hsz ⊢; omega, by simp [hhc, hhz], ?_, hnd2, hbd2⟩,
        rfl, rfl, ?_, ?_⟩
      · refine ⟨by simp [hzc], Seg.frame ?_ hzs⟩
        intro a ha
        have h1 : a ≠ c.1 := hcnot a (by simp; right; right; simpa using ha)
        have h2 : a ≠ z.1 := by
          intro e; rw [e] at ha; exact (List.nodup_cons.mp (List.nodup_cons.mp hnd2).2).1 ha
        have h3 : a ≠ l.head := by
          intro e; rw [e] at ha
          exact (List.nodup_cons.mp hnd2).1 (List.mem_cons_of_mem _ ha)
        simp [h1, h2, h3]
      · intro p hp; simp [hp]
      · intro a ha
        simp only [List.map_append, List.map_cons, List.map_nil, List.mem_cons, List.mem_append,
          List.mem_singleton, not_or] at ha
        simp [ha]
  · rw [List.concat_eq_append] at hp
    subst hp
    obtain ⟨hxs, hy, -⟩ := Seg.append_iff.mp hpre
    simp only [firstOf_cons] at hxs
    rw [lastOf_append_singleton] at hc
    have hmid2 := hmid
    simp only [List.map_append, List.map_cons, List.map_nil, List.nodup_cons, List.nodup_append,
      List.mem_cons, List.mem_append, List.mem_singleton, not_or, List.append_assoc] at hmid2
    obtain ⟨⟨-, hc_xs, ⟨hcy, -⟩, hc_post⟩, ⟨hh_xs, ⟨hhy, -⟩, hh_post⟩, -, ⟨-, hpost_nd, hy_post⟩, hxs_dis⟩ :=
      hmid2
    have hyc : y.1 ≠ c.1 := fun e => hcy e.symm
    have hyh : y.1 ≠ l.head := fun e => hhy e.symm
    have hne : ¬ ((xs ++ [y]).length ≥ l.size) := hidx
    have hs1 : ¬ l.size = 1 := by simp at hsz; omega
    have hF : firstOf (xs ++ [y] ++ c :: post) l.head = firstOf (xs ++ [y] ++ post) l.head := by
      cases xs <;> rfl
    have hxsframe : ∀ a ∈ xs.map Prod.fst, a ≠ c.1 ∧ a ≠ y.1 ∧ a ≠ l.head ∧ a ∉ post.map Prod.fst := by
      intro a ha
      refine ⟨?_, ?_, ?_, ?_⟩
      · intro e; rw [e] at ha; exact hc_xs ha
      · intro e; exact hxs_dis ha (by rw [e]; simp)
      · intro e; rw [e] at ha; exact hh_xs ha
      · intro e; exact hxs_dis ha (by simp [e])
    cases post with
    | nil =>
      simp only [firstOf_nil, lastOf_append, lastOf_cons, lastOf_nil] at hh hc
      simp only [list_remove_index, sole_entry_reset, storeNext, storePrev, storeSize, freeNode,
        Option.bind_eq_bind, Option.some_bind, Option.map_some', setNode_nodes, setNode_lists,
        setList_lists, setList_nodes,
        hln, hl, hne, hh, hadv, hc, hy, hhc, hch, hcn, hcy, hyc, hhy, hyh, if_neg hs1, hdec,
        if_true, if_false, ↓reduceIte]
      refine ⟨_, rfl, ⟨hln, by simp, by simp at hsz ⊢; omega, ?_, ?_, hnd2, hbd2⟩, rfl, rfl, ?_, ?_⟩
      · simp only [setNode_nodes, setList_nodes, if_neg hhc, if_true, ↓reduceIte, hF, lastOf_append,
          lastOf_cons, lastOf_nil]
      · simp only [List.append_nil]
        refine Seg.append_iff.mpr ⟨Seg.frame ?_ hxs, ?_, trivial⟩
        · intro a ha
          obtain ⟨h1, h2, h3, -⟩ := hxsframe a ha
          simp [h1, h2, h3]
        · simp [hyc, hyh]
      · intro p hp; simp [hp]
      · intro a ha
        simp only [List.map_append, List.map_cons, List.map_nil, List.mem_cons, List.mem_append,
          List.mem_singleton, not_or] at ha
        simp [ha]
    | cons z zs =>
      obtain ⟨hz, hzs⟩ := hpost
      simp only [firstOf_cons, lastOf_append, lastOf_cons, lastOf_nil] at hh hc
      simp only [List.map_cons, List.mem_cons, not_or, List.nodup_cons] at hc_post hh_post hpost_nd
      have hzc : z.1 ≠ c.1 := fun e => hc_post.1 e.symm
      have hcz : c.1 ≠ z.1 := hc_post.1
      have hzh : z.1 ≠ l.head := fun e => hh_post.1 e.symm
      have hhz : l.head ≠ z.1 := hh_post.1
      have hyz : y.1 ≠ z.1 := fun e => hy_post (List.mem_singleton_self _) (by rw [e]; simp)
      have hzy : z.1 ≠ y.1 := fun e => hyz e.symm
      simp only [list_remove_index, sole_entry_reset, storeNext, storePrev, storeSize, freeNode,
        Option.bind_eq_bind, Option.some_bind, Option.map_some', setNode_nodes, setNode_lists,
        setList_lists, setList_nodes,
        hln, hl, hne, hh, hadv, hc, hy, hz, hhc, hch, hcn, hcy, hyc, hhy, hyh, hzc, hcz, hzh, hhz,
        hyz, hzy, if_neg hs1, hdec, if_true, if_false, ↓reduceIte]
      refine ⟨_, rfl, ⟨hln, by simp, by simp at hsz ⊢; omega, ?_, ?_, hnd2, hbd2⟩, rfl, rfl, ?_, ?_⟩
      · simp only [setNode_nodes, setList_nodes, if_neg hhc, if_neg hhz, if_neg hhy, hh, if_true,
          ↓reduceIte, hF, lastOf_append, lastOf_cons, lastOf_nil]
      · refine Seg.append_iff.mpr ⟨Seg.append_iff.mpr ⟨Seg.frame ?_ hxs, ?_, trivial⟩, ?_, Seg.frame ?_ hzs⟩
        · intro a ha
          obtain ⟨h1, h2, h3, h4⟩ := hxsframe a ha
          have h5 : a ≠ z.1 := fun e => h4 (by simp [e])
          simp [h1, h2, h3, h5]
        · simp [hyc, hyz, lastOf_append]
        · simp [hzc, lastOf_append]
        · intro a ha
          have h1 : a ≠ c.1 := by intro e; rw [e] at ha; exact hc_post.2 ha
          have h2 : a ≠ z.1 := by intro e; rw [e] at ha; exact hpost_nd.1 ha
          have h3 : a ≠ y.1 := by
            intro e; exact hy_post (List.mem_singleton_self _) (by rw [← e]; simp [ha])
          simp [h1, h2, h3]
      · intro p hp; simp [hp]
      · intro a ha
        simp only [List.map_append, List.map_cons, List.map_nil, List.mem_cons, List.mem_append,
          List.mem_singleton, not_or] at ha
        simp [ha]

/-- Walking a segment whose entries all differ from `stop` collects its payloads. -/
theorem collect_seg {s : State} {stop : Ptr} :
    ∀ {cells : List (Ptr × Ptr)} {p : Ptr} {fuel : Nat}, Seg s.nodes p cells stop →
      stop ∉ cells.map Prod.fst → cells.length ≤ fuel →
      collect s stop fuel (firstOf cells stop) = some (cells.map Prod.snd)
  | [], _, fuel, _, _, _ => by cases fuel <;> simp [collect]
  | c :: rest, _, 0, _, _, hf => by simp at hf
  | c :: rest, _, fuel + 1, h, hs, hf => by
    have hne : c.1 ≠ stop := by
      intro e; apply hs; rw [← e]; simp
    have hs2 : stop ∉ rest.map Prod.fst := fun hm => hs (by
      simp only [List.map_cons, List.mem_cons]; right; exact hm)
    have ih := @collect_seg s stop rest c.1 fuel h.2 hs2 (by simpa using hf)
    simp only [firstOf_cons, collect, if_neg hne, h.1, Option.bind_eq_bind, Option.some_bind, ih,
      List.map_cons]

/-- On a well-formed list the payload walk yields the payloads of the entries. -/
theorem RingRep.payloads_eq {s : State} {list : Ptr} {l : list_t} {cells : List (Ptr × Ptr)}
    (h : RingRep s list l cells) : payloads s list = some (cells.map Prod.snd) := by
  have hs : l.head ∉ cells.map Prod.fst := (List.nodup_cons.mp h.nodup).1
  simp only [payloads, h.hlist, h.hhead, Option.bind_eq_bind, Option.some_bind]
  exact collect_seg h.hseg hs (le_of_eq h.hsize.symm)

theorem RingRep.sizeOf_eq {s : State} {list : Ptr} {l : list_t} {cells : List (Ptr × Ptr)}
    (h : RingRep s list l cells) : sizeOf s list = some cells.length := by
  simp [sizeOf, h.hlist, h.hsize]

/-- Splitting a list at a valid position. -/
theorem split_at_index {α : Type} (xs : List α) (i : Nat) (hi : i < xs.length) :
    xs = xs.take i ++ xs[i] :: xs.drop (i + 1) ∧ (xs.take i).length = i ∧
      xs.eraseIdx i = xs.take i ++ xs.drop (i + 1) := by
  refine ⟨?_, ?_, List.eraseIdx_eq_take_drop_succ _ _⟩
  · rw [← List.drop_eq_getElem_cons hi, List.take_append_drop]
  · simp [List.length_take]; omega

theorem list_remove_index_at {s : State} {list : Ptr} {l : list_t} {cells : List (Ptr × Ptr)}
    (h : RingRep s list l cells) (i : Nat) (hi : i < cells.length) :
    ∃ s2, list_remove_index s list i = some (s2, cells[i].2) ∧
      RingRep s2 list { l with size := l.size - 1 } (cells.eraseIdx i) ∧
      s2.trace = s.trace ∧ s2.refs = s.refs ∧ (∀ p, p ≠ list → s2.lists p = s.lists p) ∧
      (∀ a, a ∉ l.head :: cells.map Prod.fst → s2.nodes a = s.nodes a) := by
  obtain ⟨e1, e2, e3⟩ := split_at_index cells i hi
  have h2 : RingRep s list l (cells.take i ++ cells[i] :: cells.drop (i + 1)) := by
    rw [← e1]; exact h
  obtain ⟨s2, r1, r2, r3, r4, r5, r6⟩ := list_remove_index_rep _ _ _ h2
  rw [e2] at r1
  rw [← e3] at r2
  rw [← e1] at r6
  exact ⟨s2, r1, r2, r3, r4, r5, r6⟩

theorem list_remove_index_invalid (s : State) (list : Ptr) (l : list_t) (i : Nat)
    (hl : s.lists list = some l) (hi : l.size ≤ i) :
    list_remove_index s list i = some (s, NULL) := by
  unfold list_remove_index
  by_cases h0 : list = NULL
  · simp [h0]
  · have : i ≥ l.size := hi
    simp only [if_neg h0, hl, Option.bind_eq_bind, Option.some_bind, if_pos this]

theorem list_t.size_restore (l : list_t) :
    ({ ({ l with size := l.size + 1 } : list_t) with size := l.size + 1 - 1 } : list_t) = l := by
  cases l; simp

/-! ## `list_indexof` on well-formed lists -/

@[simp] theorem logAll_nodes (s : State) (evs : List Event) : (s.logAll evs).nodes = s.nodes := rfl

@[simp] theorem logAll_lists (s : State) (evs : List Event) : (s.logAll evs).lists = s.lists := rfl

@[simp] theorem logAll_refs (s : State) (evs : List Event) : (s.logAll evs).refs = s.refs := rfl

@[simp] theorem logAll_trace (s : State) (evs : List Event) :
    (s.logAll evs).trace = s.trace ++ evs := rfl

theorem logAll_nil (s : State) : s.logAll [] = s := by
  cases s; simp [State.logAll]

theorem log_logAll (s : State) (e : Event) (evs : List Event) :
    (s.log e).logAll evs = s.logAll (e :: evs) := by
  simp [State.logAll, State.log]

theorem wrap_int_of_range (x : Int) (h0 : 0 ≤ x) (h1 : x ≤ INT_MAX) : wrap_int x = x := by
  unfold wrap_int; unfold INT_MAX at h1; omega

theorem wrap_int_wrap_add (a b : Int) : wrap_int (wrap_int a + b) = wrap_int (a + b) := by
  unfold wrap_int; omega

theorem bump_eq (k : Nat) (i : Int) : bump k (wrap_int i) = wrap_int (i + k) := by
  induction k generalizing i with
  | zero => simp [bump]
  | succ k ih =>
    rw [bump, wrap_int_wrap_add, ih]
    congr 1; push_cast; ring

theorem bump_zero (k : Nat) : bump k 0 = wrap_int k := by
  have h := bump_eq k 0
  have e : wrap_int 0 = 0 := by unfold wrap_int; omega
  rw [e] at h; simpa using h

/-- The scan of `list_indexof` over a segment without a match runs to the
sentinel and reports `-1`, having called the comparison on each payload once. -/
theorem indexof_loop_miss {list d : Ptr} {l : list_t} {cmp : Ptr → Ptr → Int} :
    ∀ (cells : List (Ptr × Ptr)) (p : Ptr) (fuel : Nat) (index : Int) (s : State),
      s.lists list = some l → l.compare_to = some cmp → Seg s.nodes p cells l.head →
      l.head ∉ cells.map Prod.fst → cells.length < fuel → (∀ c ∈ cells, cmp c.2 d ≠ 0) →
      indexof_loop list d fuel (firstOf cells l.head) index s
        = some (s.logAll (cells.map fun c => Event.compare c.2 d), -1)
  | _, _, 0, _, _, _, _, _, _, hf, _ => by simp at hf
  | [], _, fuel + 1, index, s, hl, _, _, _, _, _ => by
    simp [indexof_loop, hl, logAll_nil]
  | c :: rest, _, fuel + 1, index, s, hl, hc, hseg, hs, hf, hm => by
    have hne : c.1 ≠ l.head := by
      intro e; apply hs; rw [← e]; simp
    have hs2 : l.head ∉ rest.map Prod.fst := fun hmem => hs (by
      simp only [List.map_cons, List.mem_cons]; right; exact hmem)
    have hcm : cmp c.2 d ≠ 0 := hm c (List.mem_cons_self _ _)
    have ih := indexof_loop_miss rest c.1 fuel (wrap_int (index + 1)) (s.log (.compare c.2 d))
      hl hc hseg.2 hs2 (by simpa using hf) (fun x hx => hm x (List.mem_cons_of_mem _ hx))
    simp only [firstOf_cons, indexof_loop, hl, Option.bind_eq_bind, Option.some_bind, if_neg hne,
      hseg.1, hc, if_neg hcm, ih, log_logAll, List.map_cons]

/-- The scan of `list_indexof` stops at the first matching entry and reports
the counter value reached there. -/
theorem indexof_loop_hit {list d : Ptr} {l : list_t} {cmp : Ptr → Ptr → Int} :
    ∀ (pre : List (Ptr × Ptr)) (c : Ptr × Ptr) (post : List (Ptr × Ptr)) (p : Ptr) (fuel : Nat)
      (index : Int) (s : State),
      s.lists list = some l → l.compare_to = some cmp → Seg s.nodes p (pre ++ c :: post) l.head →
      l.head ∉ (pre ++ c :: post).map Prod.fst → pre.length < fuel →
      (∀ x ∈ pre, cmp x.2 d ≠ 0) → cmp c.2 d = 0 →
      indexof_loop list d fuel (firstOf (pre ++ c :: post) l.head) index s
        = some (s.logAll ((pre ++ [c]).map fun x => Event.compare x.2 d), bump pre.length index)
  | _, _, _, _, 0, _, _, _, _, _, _, hf, _, _ => by simp at hf
  | [], c, post, _, fuel + 1, index, s, hl, hc, hseg, hs, _, _, hm => by
    have hne : c.1 ≠ l.head := by
      intro e; apply hs; rw [← e]; simp
    simp only [List.nil_append, firstOf_cons, indexof_loop, hl, Option.bind_eq_bind,
      Option.some_bind, if_neg hne, hseg.1, hc, if_pos hm, List.map_cons, List.map_nil,
      List.length_nil, bump]
    rfl
  | x :: pre, c, post, _, fuel + 1, index, s, hl, hc, hseg, hs, hf, hpre, hm => by
    have hne : x.1 ≠ l.head := by
      intro e; apply hs; rw [← e]; simp
    have hs2 : l.head ∉ (pre ++ c :: post).map Prod.fst := fun hmem => hs (by
      simp only [List.cons_append, List.map_cons, List.mem_cons]; right; exact hmem)
    have hxm : cmp x.2 d ≠ 0 := hpre x (List.mem_cons_self _ _)
    have ih := indexof_loop_hit pre c post x.1 fuel (wrap_int (index + 1)) (s.log (.compare x.2 d))
      hl hc hseg.2 hs2 (by simpa using hf) (fun y hy => hpre y (List.mem_cons_of_mem _ hy)) hm
    simp only [List.cons_append, firstOf_cons, indexof_loop, hl, Option.bind_eq_bind,
      Option.some_bind, if_neg hne, hseg.1, hc, if_neg hxm, List.append_eq, ih, log_logAll,
      List.map_cons, List.length_cons, bump]

theorem list_indexof_miss {s : State} {list : Ptr} {l : list_t} {cells : List (Ptr × Ptr)}
    (h : RingRep s list l cells) {cmp : Ptr → Ptr → Int} (hc : l.compare_to = some cmp)
    (d : Ptr) (fuel : Nat) (hf : cells.length < fuel) (hm : ∀ c ∈ cells, cmp c.2 d ≠ 0) :
    list_indexof fuel s list d = some (s.logAll (cells.map fun c => Event.compare c.2 d), -1) := by
  have hs : l.head ∉ cells.map Prod.fst := (List.nodup_cons.mp h.nodup).1
  cases cells with
  | nil =>
    have h0 : l.size = 0 := h.hsize
    simp only [list_indexof, if_neg h.list_ne, h.hlist, Option.bind_eq_bind, Option.some_bind,
      if_pos h0, List.map_nil, logAll_nil]
  | cons c rest =>
    have h0 : ¬ l.size = 0 := by rw [h.hsize]; simp
    simp only [list_indexof, if_neg h.list_ne, h.hlist, Option.bind_eq_bind, Option.some_bind,
      if_neg h0, h.hhead]
    exact indexof_loop_miss (c :: rest) l.head fuel 0 s h.hlist hc h.hseg hs hf hm

theorem list_indexof_hit {s : State} {list : Ptr} {l : list_t}
    (pre : List (Ptr × Ptr)) (c : Ptr × Ptr) (post : List (Ptr × Ptr))
    (h : RingRep s list l (pre ++ c :: post)) {cmp : Ptr → Ptr → Int}
    (hc : l.compare_to = some cmp) (d : Ptr) (fuel : Nat) (hf : pre.length < fuel)
    (hpre : ∀ x ∈ pre, cmp x.2 d ≠ 0) (hm : cmp c.2 d = 0) :
    list_indexof fuel s list d
      = some (s.logAll ((pre ++ [c]).map fun x => Event.compare x.2 d), wrap_int pre.length) := by
  have hs : l.head ∉ (pre ++ c :: post).map Prod.fst := (List.nodup_cons.mp h.nodup).1
  have h0 : ¬ l.size = 0 := by rw [h.hsize]; simp
  simp only [list_indexof, if_neg h.list_ne, h.hlist, Option.bind_eq_bind, Option.some_bind,
    if_neg h0, h.hhead]
  rw [indexof_loop_hit pre c post l.head fuel 0 s h.hlist hc h.hseg hs hf hpre hm, bump_zero]

/-! ## `list_destroy` on well-formed lists -/

theorem destroyCalls_nil (l : list_t) : destroyCalls l [] = [] := by
  simp [destroyCalls]

theorem destroyCalls_cons (l : list_t) (c : Ptr × Ptr) (rest : List (Ptr × Ptr)) :
    destroyCalls l (c :: rest) = destroyCalls l [c] ++ destroyCalls l rest := by
  unfold destroyCalls; split <;> simp

/-- The teardown loop frees every entry of the segment, front to back, calling
the destroy callback (when configured) on each payload once. -/
theorem destroy_loop_seg {lp : Ptr} {l : list_t} :
    ∀ (cells : List (Ptr × Ptr)) (p : Ptr) (fuel : Nat) (s : State),
      s.lists lp = some l → Seg s.nodes p cells l.head →
      (l.head :: cells.map Prod.fst).Nodup → (∀ a ∈ cells.map Prod.fst, a ≠ NULL) →
      cells.length < fuel →
      ∃ s2, destroy_loop lp fuel (firstOf cells l.head) s = some s2 ∧
        s2.lists = s.lists ∧ s2.refs = s.refs ∧
        s2.trace = s.trace ++ destroyCalls l cells ∧
        (∀ a, s2.nodes a = if a ∈ cells.map Prod.fst then none else s.nodes a)
  | _, _, 0, _, _, _, _, _, hf => by simp at hf
  | [], _, fuel + 1, s, hl, _, _, _, _ => by
    refine ⟨s, ?_, rfl, rfl, by simp [destroyCalls_nil], by simp⟩
    simp [destroy_loop, hl]
  | c :: rest, _, fuel + 1, s, hl, hseg, hnd, hnn, hf => by
    rw [List.map_cons, List.nodup_cons, List.nodup_cons] at hnd
    have hne : c.1 ≠ l.head := by
      intro e; apply hnd.1; rw [← e]; simp
    have hc0 : c.1 ≠ NULL := hnn c.1 (by simp)
    -- the state after the callback and `free(current)`
    let s1 : State := if l.destroy_data ≠ NULL then s.log (.destroy l.destroy_data c.2) else s
    have hs1n : s1.nodes = s.nodes := by simp only [s1]; split <;> rfl
    have hs1l : s1.lists = s.lists := by simp only [s1]; split <;> rfl
    have hs1r : s1.refs = s.refs := by simp only [s1]; split <;> rfl
    have hs1t : s1.trace = s.trace ++ destroyCalls l [c] := by
      simp only [s1, destroyCalls]; split <;> simp
    have hseg2 : Seg (s1.setNode c.1 none).nodes c.1 rest l.head := by
      refine Seg.frame ?_ hseg.2
      intro a ha
      have : a ≠ c.1 := by intro e; rw [e] at ha; exact hnd.2.1 ha
      simp [this, hs1n]
    have hnd2 : (l.head :: rest.map Prod.fst).Nodup :=
      List.nodup_cons.mpr ⟨fun hm => hnd.1 (List.mem_cons_of_mem _ hm), hnd.2.2⟩
    obtain ⟨s2, e2, r1, r2, r3, r4⟩ := destroy_loop_seg rest c.1 fuel (s1.setNode c.1 none)
      (by simpa [hs1l] using hl) hseg2 hnd2
      (fun a ha => hnn a (by simp only [List.map_cons, List.mem_cons]; right; exact ha))
      (by simpa using hf)
    refine ⟨s2, ?_, ?_, ?_, ?_, ?_⟩
    · have hfree : freeNode s1 c.1 = some (s1.setNode c.1 none) := by
        simp [freeNode, hc0, hs1n, hseg.1]
      simp only [firstOf_cons, destroy_loop, hl, Option.bind_eq_bind, Option.some_bind, if_neg hne,
        hseg.1]
      show (freeNode s1 c.1).bind (fun s2 => destroy_loop lp fuel (firstOf rest l.head) s2) = some s2
      rw [hfree]; exact e2
    · rw [r1]; simpa using hs1l
    · rw [r2]; simpa using hs1r
    · rw [r3, destroyCalls_cons l c rest]; simp [hs1t]
    · intro a
      rw [r4 a]
      by_cases hac : a = c.1
      · simp [hac]
      · by_cases hm : a ∈ rest.map Prod.fst
        · rw [if_pos hm, List.map_cons, if_pos (List.mem_cons_of_mem _ hm)]
        · have hm2 : a ∉ c.1 :: rest.map Prod.fst := fun hx =>
            (List.mem_cons.mp hx).elim hac hm
          rw [if_neg hm, List.map_cons, if_neg hm2]
          simp [hac, hs1n]

/-- Effect of `list_destroy` on a well-formed list held in the variable at `r`. -/
theorem list_destroy_rep {s : State} {lp : Ptr} {l : list_t} {cells : List (Ptr × Ptr)}
    (h : RingRep s lp l cells) (r : Ptr) (hr0 : r ≠ NULL) (hr : s.refs r = some lp)
    (fuel : Nat) (hf : cells.length < fuel) :
    ∃ s2, list_destroy fuel s r = some s2 ∧
      s2.refs r = some NULL ∧ (∀ q, q ≠ r → s2.refs q = s.refs q) ∧
      s2.trace = s.trace ++ destroyCalls l cells ∧
      s2.lists lp = none ∧ (∀ q, q ≠ lp → s2.lists q = s.lists q) ∧
      (∀ a, s2.nodes a = if a ∈ l.head :: cells.map Prod.fst then none else s.nodes a) := by
  have hnn : ∀ a ∈ cells.map Prod.fst, a ≠ NULL := fun a ha =>
    (h.bound a (List.mem_cons_of_mem _ ha)).1
  have hh0 : l.head ≠ NULL := (h.bound l.head (List.mem_cons_self _ _)).1
  have hnot : l.head ∉ cells.map Prod.fst := (List.nodup_cons.mp h.nodup).1
  obtain ⟨s1, e1, r1, r2, r3, r4⟩ :=
    destroy_loop_seg cells l.head fuel s h.hlist h.hseg h.nodup hnn hf
  have hl1 : s1.lists lp = some l := by rw [r1]; exact h.hlist
  have hh1 : s1.nodes l.head = some ⟨NULL, firstOf cells l.head, lastOf l.head cells⟩ := by
    rw [r4, if_neg hnot]; exact h.hhead
  refine ⟨((s1.setNode l.head none).setList lp none).setRef r (some NULL), ?_, by simp, ?_, ?_,
    by simp, ?_, ?_⟩
  · simp only [list_destroy, if_neg hr0, hr, Option.bind_eq_bind, Option.some_bind,
      if_neg h.list_ne, h.hlist, h.hhead, e1, hl1, freeNode, if_neg hh0, hh1, Option.map_some',
      freeList, setNode_lists]
  · intro q hq; simp [hq, r2]
  · simp [r3]
  · intro q hq; simp [hq, r1]
  · intro a
    by_cases ha : a = l.head
    · simp [ha]
    · by_cases hm : a ∈ cells.map Prod.fst
      · rw [if_pos (List.mem_cons_of_mem _ hm)]
        simp [ha, r4, hm]
      · have hm2 : a ∉ l.head :: cells.map Prod.fst := fun hx =>
          (List.mem_cons.mp hx).elim ha hm
        rw [if_neg hm2]
        simp [ha, r4, hm]

/-! ## Further lemmas: runs of adds, the ring invariants, the long list -/

/-- A run of `list_add` calls with fresh, pairwise distinct nodes puts the
payloads in front of the list, the last one added first. -/
theorem add_all_rep {list : Ptr} :
    ∀ (adds : List (Ptr × Ptr)) (s : State) (l : list_t) (cells : List (Ptr × Ptr)),
      RingRep s list l cells → (adds.map Prod.fst).Nodup →
      (∀ m ∈ adds.map Prod.fst, FreshNode s m) →
      ∃ sN lN, add_all s list adds = some sN ∧ RingRep sN list lN (adds.reverse ++ cells) ∧
        lN.compare_to = l.compare_to ∧ lN.destroy_data = l.destroy_data ∧ lN.head = l.head ∧
        sN.trace = s.trace ∧ sN.refs = s.refs
  | [], s, l, cells, h, _, _ => ⟨s, l, rfl, by simpa using h, rfl, rfl, rfl, rfl, rfl⟩
  | c :: rest, s, l, cells, h, hnd, hfr => by
    rw [List.map_cons, List.nodup_cons] at hnd
    have hc : FreshNode s c.1 := hfr c.1 (by simp)
    obtain ⟨s1, e1, r1, t1, f1, -, n1⟩ := list_add_rep h c.2 c.1 hc
    have hfr1 : ∀ m ∈ rest.map Prod.fst, FreshNode s1 m := by
      intro m hm
      obtain ⟨a1, a2, a3⟩ := hfr m (by simp only [List.map_cons, List.mem_cons]; right; exact hm)
      refine ⟨a1, a2, ?_⟩
      rw [n1 m, a3]
      intro hmem
      rcases List.mem_cons.mp hmem with e | e
      · rw [e] at hm; exact hnd.1 hm
      · exact h.fresh_not_mem a3 e
    obtain ⟨sN, lN, e2, r2, c2, d2, h2, t2, f2⟩ := add_all_rep rest s1 _ _ r1 hnd.2 hfr1
    refine ⟨sN, lN, ?_, ?_, c2, d2, h2, by rw [t2, t1], by rw [f2, f1]⟩
    · simp only [add_all, e1, Option.bind_eq_bind, Option.some_bind, if_true]
      exact e2
    · have e : (c :: rest).reverse ++ cells = rest.reverse ++ (c.1, c.2) :: cells := by simp
      rw [e]; exact r2

theorem scenario_rep : RingRep scenario 1 scenarioList scenarioCells := by
  refine ⟨by decide, rfl, rfl, rfl, ⟨rfl, rfl, rfl, trivial⟩, by decide, ?_⟩
  intro a ha
  have hlt : ∀ n : Nat, n < 2 ^ 64 → n < SIZE_MOD := by
    intro n hn; unfold SIZE_MOD; exact hn
  simp only [scenarioList, scenarioCells, List.map_cons, List.map_nil, List.mem_cons,
    List.mem_singleton, List.not_mem_nil, or_false] at ha
  rcases ha with rfl | rfl | rfl | rfl <;> exact ⟨by decide, hlt _ (by decide)⟩

theorem scenario_fresh : FreshNode scenario 14 :=
  ⟨by decide, by unfold SIZE_MOD; decide, rfl⟩

/-- In a list split around an entry, the entry sits at the index given by the
length of the front part, and every smaller index falls in the front part. -/
theorem getElem?_split {α : Type} (pre : List α) (c : α) (post : List α) :
    (pre ++ c :: post)[pre.length]? = some c ∧
      ∀ j x, j < pre.length → (pre ++ c :: post)[j]? = some x → x ∈ pre := by
  refine ⟨by rw [List.getElem?_append_right (Nat.le_refl _)]; simp, ?_⟩
  intro j x hj hx
  rw [List.getElem?_append_left hj] at hx
  exact List.mem_iff_getElem?.mpr ⟨j, hx⟩

/-- A list with an entry at index `i` splits around that entry. -/
theorem split_of_getElem? {α : Type} (xs : List α) (i : Nat) (c : α) (hi : xs[i]? = some c) :
    xs = xs.take i ++ c :: xs.drop (i + 1) ∧ (xs.take i).length = i ∧
      ∀ x ∈ xs.take i, ∃ j, j < i ∧ xs[j]? = some x := by
  obtain ⟨hlt, hget⟩ := List.getElem?_eq_some.mp hi
  obtain ⟨e1, e2, -⟩ := split_at_index xs i hlt
  refine ⟨by rw [← hget]; exact e1, e2, ?_⟩
  intro x hx
  obtain ⟨j, hj⟩ := List.mem_iff_getElem?.mp hx
  have hjlt : j < i := by
    obtain ⟨h1, -⟩ := List.getElem?_eq_some.mp hj
    rw [e2] at h1; exact h1
  exact ⟨j, hjlt, by rw [← List.getElem?_take_of_lt hjlt]; exact hj⟩

/-- A list with a matching entry splits at its first matching entry. -/
theorem first_match_split {α : Type} (P : α → Prop) :
    ∀ (xs : List α), (∃ c ∈ xs, P c) →
      ∃ pre c post, xs = pre ++ c :: post ∧ (∀ x ∈ pre, ¬ P x) ∧ P c
  | [], h => by obtain ⟨c, hc, -⟩ := h; simp at hc
  | x :: xs, h => by
    by_cases hx : P x
    · exact ⟨[], x, xs, rfl, by simp, hx⟩
    · have h2 : ∃ c ∈ xs, P c := by
        obtain ⟨c, hc, hp⟩ := h
        rcases List.mem_cons.mp hc with e | e
        · rw [e] at hp; exact absurd hp hx
        · exact ⟨c, e, hp⟩
      obtain ⟨pre, c, post, e, hpre, hc⟩ := first_match_split P xs h2
      refine ⟨x :: pre, c, post, by rw [e]; rfl, ?_, hc⟩
      intro y hy
      rcases List.mem_cons.mp hy with e2 | e2
      · rw [e2]; exact hx
      · exact hpre y e2

/-- The long list: after the adds of `bigAdds k` the list is well formed with
entries `bigCells k`, its only matching entry for the query `9` is the last
one, at position `k`, and `list_indexof` reports the wrapped counter there. -/
theorem big_list_scan (k : Nat) (hk : k + 3 ≤ 2 ^ 64) :
    ∃ s l, add_all bigInit 1 (bigAdds k) = some s ∧
      RingRep s 1 l (bigCells k) ∧ l.compare_to = some cmp_ptr ∧
      (bigCells k)[k]? = some (2, 9) ∧
      (∀ j x, j < k → (bigCells k)[j]? = some x → cmp_ptr x.2 9 ≠ 0) ∧
      ∀ fuel, k < fuel → (list_indexof fuel s 1 9).map Prod.snd = some (wrap_int k) := by
  have h0 : RingRep bigInit 1 ⟨NULL, some cmp_ptr, 0, 1⟩ [] :=
    (list_init_rep State.empty NULL (some cmp_ptr) 1 1
      ⟨by decide, by unfold SIZE_MOD; decide, rfl⟩ ⟨by decide, by unfold SIZE_MOD; decide, rfl⟩).2
  have hnd : ((bigAdds k).map Prod.fst).Nodup := by
    simp only [bigAdds, List.map_cons, List.map_map, List.nodup_cons, List.mem_map,
      List.mem_range, Function.comp_apply, not_exists, not_and]
    refine ⟨fun j _ => ?_, ?_⟩
    · unfold Ptr at *
      omega
    · refine List.Nodup.map ?_ (List.nodup_range k)
      intro a b hab
      simp only [Function.comp_apply] at hab
      unfold Ptr at *
      omega
  have hfr : ∀ m ∈ (bigAdds k).map Prod.fst, FreshNode bigInit m := by
    intro m hm
    have hm2 : 2 ≤ m ∧ m < k + 3 := by
      simp only [bigAdds, List.map_cons, List.map_map, List.mem_cons, List.mem_map,
        List.mem_range, Function.comp_apply] at hm
      unfold Ptr at *
      rcases hm with e | ⟨j, hj, e⟩
      · omega
      · omega
    have hk2 : k + 3 ≤ 18446744073709551616 := by norm_num at hk; exact hk
    unfold Ptr at *
    have hm0 : m ≠ 0 := by omega
    have hne : m ≠ 1 := by omega
    have hm3 : m < 18446744073709551616 := by omega
    refine ⟨hm0, by unfold SIZE_MOD; norm_num; exact hm3, ?_⟩
    simp [bigInit, list_init, State.empty, hne]
  obtain ⟨s, l, e, r, hc, -⟩ := add_all_rep (bigAdds k) bigInit _ [] h0 hnd hfr
  have hrev : (bigAdds k).reverse ++ [] = bigCells k := by
    simp [bigAdds, bigCells]
  rw [hrev] at r
  have hlen : (((List.range k).map (fun j => ((j + 3 : Ptr), (7 : Ptr)))).reverse).length = k := by
    rw [List.length_reverse, List.length_map, List.length_range]
  have hpre : ∀ x ∈ ((List.range k).map (fun j => ((j + 3 : Ptr), (7 : Ptr)))).reverse,
      cmp_ptr x.2 9 ≠ 0 := by
    intro x hx
    simp only [List.mem_reverse, List.mem_map, List.mem_range] at hx
    obtain ⟨j, -, e⟩ := hx
    rw [← e]; simp [cmp_ptr]
  obtain ⟨g1, g2⟩ := getElem?_split
    (((List.range k).map (fun j => ((j + 3 : Ptr), (7 : Ptr)))).reverse) ((2 : Ptr), (9 : Ptr)) []
  rw [hlen] at g1 g2
  refine ⟨s, l, e, r, hc, g1, fun j x hj hx => hpre x (g2 j x hj hx), ?_⟩
  intro fuel hf
  have hf2 : (((List.range k).map (fun j => ((j + 3 : Ptr), (7 : Ptr)))).reverse).length < fuel := by
    rw [hlen]; exact hf
  rw [list_indexof_hit _ (2, 9) [] r hc 9 fuel hf2 hpre (by simp [cmp_ptr]), hlen]
  rfl

/-- Walking a whole segment along `next` leaves it at its exit. -/
theorem advance_seg_end {s : State} :
    ∀ {cells : List (Ptr × Ptr)} {p q : Ptr}, Seg s.nodes p cells q →
      advance s cells.length (firstOf cells q) = some q
  | [], _, _, _ => rfl
  | x :: xs, _, q, h => by
    have ih := @advance_seg_end s xs x.1 q h.2
    simp only [firstOf_cons, List.length_cons, advance]
    rw [h.1]
    simpa using ih

/-- Walking a whole segment along `prev` from its last entry leaves it at its entry. -/
theorem retreat_seg_end {s : State} (cells : List (Ptr × Ptr)) :
    ∀ {p q : Ptr}, Seg s.nodes p cells q → retreat s cells.length (lastOf p cells) = some p := by
  induction cells using List.reverseRecOn with
  | nil => intro p q _; rfl
  | append_singleton xs z ih =>
    intro p q h
    obtain ⟨h1, h2, -⟩ := Seg.append_iff.mp h
    simp only [firstOf_cons] at h1
    rw [lastOf_append_singleton, List.length_append, List.length_singleton]
    simp only [retreat, h2, Option.bind_eq_bind, Option.some_bind]
    exact ih h1

/-- Walking back along `prev` from the last entry reaches the entry that has
`post.length` entries behind it. -/
theorem retreat_seg {s : State} (post : List (Ptr × Ptr)) :
    ∀ {pre : List (Ptr × Ptr)} {c : Ptr × Ptr} {p q : Ptr},
      Seg s.nodes p (pre ++ c :: post) q →
        retreat s post.length (lastOf p (pre ++ c :: post)) = some c.1 := by
  induction post using List.reverseRecOn with
  | nil =>
    intro pre c p q _
    rw [lastOf_append]; rfl
  | append_singleton zs z ih =>
    intro pre c p q h
    have e : pre ++ c :: (zs ++ [z]) = (pre ++ c :: zs) ++ [z] := by simp
    rw [e] at h ⊢
    obtain ⟨h1, h2, -⟩ := Seg.append_iff.mp h
    simp only [firstOf_cons] at h1
    rw [lastOf_append_singleton, List.length_append, List.length_singleton]
    simp only [retreat, h2, Option.bind_eq_bind, Option.some_bind]
    exact ih h1

/-- On a well-formed list, `k + 1` hops along `next` from the sentinel reach
the entry at position `k`, and `size + 1` hops reach the sentinel again. -/
theorem RingRep.advance_eq {s : State} {list : Ptr} {l : list_t} {cells : List (Ptr × Ptr)}
    (h : RingRep s list l cells) :
    (∀ k c, cells[k]? = some c → advance s (k + 1) l.head = some c.1) ∧
      advance s (cells.length + 1) l.head = some l.head := by
  have step : ∀ k, advance s (k + 1) l.head = advance s k (firstOf cells l.head) := by
    intro k
    simp only [advance, h.hhead, Option.bind_eq_bind, Option.some_bind]
  refine ⟨?_, ?_⟩
  · intro k c hk
    obtain ⟨e1, e2, -⟩ := split_of_getElem? cells k c hk
    have hseg := h.hseg
    rw [e1] at hseg
    have := advance_seg hseg
    rw [e2, ← e1] at this
    rw [step]; exact this
  · rw [step]; exact advance_seg_end h.hseg

/-- On a well-formed list, `k + 1 ≤ size` hops along `prev` from the sentinel
reach an entry, and `size + 1` hops reach the sentinel again. -/
theorem RingRep.retreat_eq {s : State} {list : Ptr} {l : list_t} {cells : List (Ptr × Ptr)}
    (h : RingRep s list l cells) :
    (∀ k, k < cells.length → ∃ c ∈ cells, retreat s (k + 1) l.head = some c.1) ∧
      retreat s (cells.length + 1) l.head = some l.head := by
  have step : ∀ k, retreat s (k + 1) l.head = retreat s k (lastOf l.head cells) := by
    intro k
    simp only [retreat, h.hhead, Option.bind_eq_bind, Option.some_bind]
  refine ⟨?_, ?_⟩
  · intro k hk
    have hi : cells.length - 1 - k < cells.length := by omega
    obtain ⟨e1, -, -⟩ := split_at_index cells (cells.length - 1 - k) hi
    have hlen : (cells.drop (cells.length - 1 - k + 1)).length = k := by
      rw [List.length_drop]; omega
    have hseg := h.hseg
    rw [e1] at hseg
    have := retreat_seg _ hseg
    rw [hlen, ← e1] at this
    exact ⟨_, List.getElem_mem hi, by rw [step]; exact this⟩
  · rw [step]; exact retreat_seg_end cells h.hseg

/-- On a well-formed list every ring node `e` is allocated and satisfies
`e.next.prev == e` and `e.prev.next == e`. -/
theorem RingRep.links {s : State} {list : Ptr} {l : list_t} {cells : List (Ptr × Ptr)}
    (h : RingRep s list l cells) :
    ∀ e ∈ l.head :: cells.map Prod.fst, ∃ n nn np, s.nodes e = some n ∧
      s.nodes n.next = some nn ∧ nn.prev = e ∧ s.nodes n.prev = some np ∧ np.next = e := by
  -- the node after an entry at the end of `pre ++ [c]` points back to it
  have hnext : ∀ (pre : List (Ptr × Ptr)) (c : Ptr × Ptr) (post : List (Ptr × Ptr)),
      cells = pre ++ c :: post →
      ∃ nn, s.nodes (firstOf post l.head) = some nn ∧ nn.prev = c.1 := by
    intro pre c post e
    cases post with
    | nil =>
      refine ⟨_, h.hhead, ?_⟩
      show lastOf l.head cells = c.1
      rw [e]; exact lastOf_append_singleton _ _ _
    | cons z zs =>
      have hseg := h.hseg
      rw [e] at hseg
      obtain ⟨-, -, hz, -⟩ := Seg.append_iff.mp hseg
      exact ⟨_, hz, rfl⟩
  -- the node before an entry points forward to it
  have hprev : ∀ (pre : List (Ptr × Ptr)) (c : Ptr × Ptr) (post : List (Ptr × Ptr)),
      cells = pre ++ c :: post →
      ∃ np, s.nodes (lastOf l.head pre) = some np ∧ np.next = c.1 := by
    intro pre c post e
    rcases List.eq_nil_or_concat pre with hp | ⟨xs, y, hp⟩
    · subst hp
      refine ⟨_, h.hhead, ?_⟩
      show firstOf cells l.head = c.1
      rw [e]; rfl
    · rw [List.concat_eq_append] at hp
      subst hp
      have hseg := h.hseg
      rw [e] at hseg
      obtain ⟨h1, -⟩ := Seg.append_iff.mp hseg
      obtain ⟨-, hy, -⟩ := Seg.append_iff.mp h1
      rw [lastOf_append_singleton]
      exact ⟨_, hy, rfl⟩
  intro e he
  rcases List.mem_cons.mp he with e0 | e0
  · subst e0
    have hA : ∃ nn, s.nodes (firstOf cells l.head) = some nn ∧ nn.prev = l.head := by
      cases cells with
      | nil => exact ⟨_, h.hhead, rfl⟩
      | cons c rest => exact ⟨_, h.hseg.1, rfl⟩
    have hB : ∃ np, s.nodes (lastOf l.head cells) = some np ∧ np.next = l.head := by
      rcases List.eq_nil_or_concat cells with hp | ⟨xs, y, hp⟩
      · subst hp; exact ⟨_, h.hhead, rfl⟩
      · rw [List.concat_eq_append] at hp
        have hseg := h.hseg
        rw [hp] at hseg
        obtain ⟨-, hy, -⟩ := Seg.append_iff.mp hseg
        rw [hp, lastOf_append_singleton]
        exact ⟨_, hy, rfl⟩
    obtain ⟨nn, a1, a2⟩ := hA
    obtain ⟨np, b1, b2⟩ := hB
    exact ⟨_, nn, np, h.hhead, a1, a2, b1, b2⟩
  · obtain ⟨c, hc, rfl⟩ := List.mem_map.mp e0
    obtain ⟨pre, post, e⟩ := List.append_of_mem hc
    have hseg := h.hseg
    rw [e] at hseg
    obtain ⟨-, hcn, -⟩ := Seg.append_iff.mp hseg
    obtain ⟨nn, a1, a2⟩ := hnext pre c post e
    obtain ⟨np, b1, b2⟩ := hprev pre c post e
    exact ⟨_, nn, np, hcn, a1, a2, b1, b2⟩

/-- On a well-formed list, `k ≤ size` hops along `next` from the sentinel reach
the `k`-th node of the ring `head :: entries`. -/
theorem RingRep.advance_ring {s : State} {list : Ptr} {l : list_t} {cells : List (Ptr × Ptr)}
    (h : RingRep s list l cells) (k : Nat) (hk : k ≤ cells.length) :
    advance s k l.head = (l.head :: cells.map Prod.fst)[k]? := by
  cases k with
  | zero => simp [advance]
  | succ k =>
    have hlt : k < cells.length := hk
    rw [h.advance_eq.1 k cells[k] (List.getElem?_eq_getElem hlt)]
    simp [List.getElem?_eq_getElem hlt]

/-- A well-formed list satisfies the ring invariants of the specification. -/
theorem RingRep.inv {s : State} {list : Ptr} {l : list_t} {cells : List (Ptr × Ptr)}
    (h : RingRep s list l cells) : RingInv s list := by
  have hnot : l.head ∉ cells.map Prod.fst := (List.nodup_cons.mp h.nodup).1
  have hne := List.nodup_iff_getElem?_ne_getElem?.mp h.nodup
  have hcyc : (l.head :: cells.map Prod.fst).length = l.size + 1 := by
    simp [h.hsize]
  have hmem : ∀ k e, k ≤ l.size → advance s k l.head = some e →
      e ∈ l.head :: cells.map Prod.fst := by
    intro k e hk he
    rw [h.advance_ring k (by rw [← h.hsize]; exact hk)] at he
    exact List.mem_iff_getElem?.mpr ⟨k, he⟩
  refine ⟨h.list_ne, l, _, h.hlist, h.hhead, rfl, ?_, ?_, ?_, ?_, ?_, ?_⟩
  · rw [h.hsize]; exact h.advance_eq.2
  · intro k hk0 hk
    have h0 : advance s 0 l.head = some l.head := rfl
    rw [← h0, h.advance_ring 0 (Nat.zero_le _), h.advance_ring k (by rw [← h.hsize]; exact hk)]
    exact (hne 0 k hk0 (by rw [hcyc]; omega)).symm
  · rw [h.hsize]; exact h.retreat_eq.2
  · intro k hk0 hk
    obtain ⟨c, hc, e⟩ := h.retreat_eq.1 (k - 1) (by rw [← h.hsize]; omega)
    have hk1 : k - 1 + 1 = k := by omega
    rw [hk1] at e
    rw [e]
    intro hx
    have hx2 : c.1 = l.head := Option.some.inj hx
    exact hnot (by rw [← hx2]; exact List.mem_map_of_mem _ hc)
  · intro j k hjk hk
    rw [h.advance_ring j (by rw [← h.hsize]; omega), h.advance_ring k (by rw [← h.hsize]; exact hk)]
    exact hne j k hjk (by rw [hcyc]; omega)
  · intro k e hk he
    have hin := hmem k e hk he
    exact ⟨(h.bound e hin).1, (h.bound e hin).2, h.links e hin⟩

theorem list_destroy_null (fuel : Nat) (s : State) : list_destroy fuel s NULL = some s := by
  simp [list_destroy]

theorem list_destroy_absent (fuel : Nat) (s : State) (r : Ptr) (hr : s.refs r = some NULL) :
    list_destroy fuel s r = some s := by
  unfold list_destroy
  by_cases h0 : r = NULL
  · simp [h0]
  · simp only [if_neg h0, hr, Option.bind_eq_bind, Option.some_bind, if_true]

theorem advance_succ {s : State} {cur : Ptr} {n : node_t} (hn : s.nodes cur = some n) (k : Nat) :
    advance s (k + 1) cur = advance s k n.next := by
  simp only [advance, hn, Option.bind_eq_bind, Option.some_bind]

/-- A walk along `next` through allocated nodes that point back to their
predecessors is a doubly-linked segment. -/
theorem ringCells_seg (s : State) :
    ∀ (k : Nat) (cur p q : Ptr), advance s k cur = some q →
      (∀ i e, i < k → advance s i cur = some e →
        ∃ n nn, s.nodes e = some n ∧ s.nodes n.next = some nn ∧ nn.prev = e) →
      (0 < k → ∃ n, s.nodes cur = some n ∧ n.prev = p) →
      Seg s.nodes p (ringCells s k cur) q ∧ firstOf (ringCells s k cur) q = cur ∧
        (ringCells s k cur).length = k ∧
        (∀ j, j < k → ((ringCells s k cur).map Prod.fst)[j]? = advance s j cur) ∧
        (0 < k → some (lastOf p (ringCells s k cur)) = advance s (k - 1) cur)
  | 0, cur, p, q, hq, _, _ => by
    have e : q = cur := (Option.some.inj hq).symm
    subst e
    exact ⟨trivial, rfl, rfl, fun j hj => absurd hj (Nat.not_lt_zero j), fun h => absurd h (Nat.lt_irrefl 0)⟩
  | k + 1, cur, p, q, hq, hlinks, hcur => by
    obtain ⟨n, hn, hnp⟩ := hcur (Nat.succ_pos k)
    rw [advance_succ hn] at hq
    have hlinks2 : ∀ i e, i < k → advance s i n.next = some e →
        ∃ n2 nn, s.nodes e = some n2 ∧ s.nodes n2.next = some nn ∧ nn.prev = e := by
      intro i e hi he
      exact hlinks (i + 1) e (by omega) (by rw [advance_succ hn]; exact he)
    have hcur2 : 0 < k → ∃ n2, s.nodes n.next = some n2 ∧ n2.prev = cur := by
      intro _
      obtain ⟨n1, nn, a1, a2, a3⟩ := hlinks 0 cur (Nat.succ_pos k) rfl
      rw [hn] at a1
      have e1 : n = n1 := Option.some.inj a1
      subst e1
      exact ⟨nn, a2, a3⟩
    obtain ⟨g1, g2, g3, g4, g5⟩ := ringCells_seg s k n.next cur q hq hlinks2 hcur2
    have hrc : ringCells s (k + 1) cur = (cur, n.data) :: ringCells s k n.next := by
      simp only [ringCells, hn]
    rw [hrc]
    refine ⟨⟨?_, g1⟩, rfl, by simp [g3], ?_, ?_⟩
    · show s.nodes cur = some ⟨n.data, firstOf (ringCells s k n.next) q, p⟩
      rw [g2, hn, ← hnp]
    · intro j hj
      cases j with
      | zero => simp [advance]
      | succ j =>
        rw [advance_succ hn]
        simpa using g4 j (by omega)
    · intro _
      cases k with
      | zero =>
        simp [ringCells, advance]
      | succ k =>
        have := g5 (Nat.succ_pos k)
        simp only [lastOf_cons, Nat.add_sub_cancel] at this ⊢
        rw [this, advance_succ hn]

/-- One more hop along `next` at the end of a walk. -/
theorem advance_succ_right (s : State) :
    ∀ (k : Nat) (cur : Ptr),
      advance s (k + 1) cur = (advance s k cur).bind fun e => (s.nodes e).map fun n => n.next
  | 0, cur => by
    cases hn : s.nodes cur with
    | none => simp [advance, hn]
    | some n => simp [advance, hn]
  | k + 1, cur => by
    cases hn : s.nodes cur with
    | none => simp [advance, hn]
    | some n =>
      rw [advance_succ hn, advance_succ hn]
      exact advance_succ_right s k n.next

/-- The ring invariants of the specification determine a ring representation. -/
theorem RingInv.wellFormed {s : State} {list : Ptr} (h : RingInv s list) : WellFormed s list := by
  obtain ⟨hne, l, hd, hl, hh, hdata, hadv, -, -, -, hdist, hlinks⟩ := h
  have hadv2 : advance s l.size hd.next = some l.head := by
    rw [← advance_succ hh]; exact hadv
  have hl0 := hlinks 0 l.head (Nat.zero_le _) rfl
  obtain ⟨-, -, n0, nn0, -, a1, a2, a3, -, -⟩ := hl0
  rw [hh] at a1
  have e0 : hd = n0 := Option.some.inj a1
  subst e0
  obtain ⟨g1, g2, g3, g4, g5⟩ := ringCells_seg s l.size hd.next l.head l.head hadv2
    (by
      intro i e hi he
      obtain ⟨-, -, n, nn, -, b1, b2, b3, -, -⟩ :=
        hlinks (i + 1) e (by omega) (by rw [advance_succ hh]; exact he)
      exact ⟨n, nn, b1, b2, b3⟩)
    (fun _ => ⟨nn0, a2, a3⟩)
  have hcyc : ∀ j, j ≤ l.size →
      (l.head :: (ringCells s l.size hd.next).map Prod.fst)[j]? = advance s j l.head := by
    intro j hj
    cases j with
    | zero => simp [advance]
    | succ j =>
      rw [advance_succ hh]
      simpa using g4 j (by omega)
  have hlenc : (l.head :: (ringCells s l.size hd.next).map Prod.fst).length = l.size + 1 := by
    simp [g3]
  have hprev : hd.prev = lastOf l.head (ringCells s l.size hd.next) := by
    by_cases hz : l.size = 0
    · have hnx : hd.next = l.head := by
        rw [hz] at hadv2; exact Option.some.inj hadv2
      have hc0 : ringCells s l.size hd.next = [] := by rw [hz]; rfl
      rw [hc0, lastOf_nil]
      rw [hnx, hh] at a2
      rw [← Option.some.inj a2] at a3
      exact a3
    · have hpos : 0 < l.size := Nat.pos_of_ne_zero hz
      have hlast := g5 hpos
      have hstep : advance s l.size l.head = some (lastOf l.head (ringCells s l.size hd.next)) := by
        have e : l.size = (l.size - 1) + 1 := by omega
        rw [e, advance_succ hh, ← e]; exact hlast.symm
      obtain ⟨-, -, ne, nn, -, b1, b2, b3, -, -⟩ := hlinks l.size _ (Nat.le_refl _) hstep
      have hfin := advance_succ_right s l.size l.head
      rw [hadv, hstep] at hfin
      simp only [Option.bind_eq_bind, Option.some_bind, b1, Option.map_some'] at hfin
      have hnx : ne.next = l.head := (Option.some.inj hfin).symm
      rw [hnx, hh] at b2
      rw [← Option.some.inj b2] at b3
      exact b3
  refine ⟨l, ringCells s l.size hd.next, hne, hl, g3.symm, ?_, g1, ?_, ?_⟩
  · rw [hh, g2, ← hprev, ← hdata]
  · rw [List.nodup_iff_getElem?_ne_getElem?]
    intro i j hij hj
    rw [hlenc] at hj
    rw [hcyc i (by omega), hcyc j (by omega)]
    exact hdist i j hij (by omega)
  · intro a ha
    obtain ⟨k, hk⟩ := List.mem_iff_getElem?.mp ha
    have hklt : k < l.size + 1 := by
      rw [← hlenc]; exact (List.getElem?_eq_some.mp hk).1
    rw [hcyc k (by omega)] at hk
    obtain ⟨c1, c2, -⟩ := hlinks k a (by omega) hk
    exact ⟨c1, c2⟩

/-- The ring invariants hold exactly on the lists that have a ring representation. -/
theorem ringInv_iff_wellFormed (s : State) (list : Ptr) : RingInv s list ↔ WellFormed s list :=
  ⟨RingInv.wellFormed, fun ⟨_, _, h⟩ => h.inv⟩

/-! ## Further lemmas: frames, the general removal, bounded traversals -/

theorem storeNext_frame {s t : State} {p v : Ptr} (h : storeNext s p v = some t) :
    t.trace = s.trace ∧ t.lists = s.lists ∧ t.refs = s.refs := by
  unfold storeNext at h
  cases hn : s.nodes p with
  | none => rw [hn] at h; simp at h
  | some n =>
    rw [hn] at h
    simp only [Option.map_some', Option.some.injEq] at h
    subst h; exact ⟨rfl, rfl, rfl⟩

theorem storePrev_frame {s t : State} {p v : Ptr} (h : storePrev s p v = some t) :
    t.trace = s.trace ∧ t.lists = s.lists ∧ t.refs = s.refs := by
  unfold storePrev at h
  cases hn : s.nodes p with
  | none => rw [hn] at h; simp at h
  | some n =>
    rw [hn] at h
    simp only [Option.map_some', Option.some.injEq] at h
    subst h; exact ⟨rfl, rfl, rfl⟩

theorem freeNode_frame {s t : State} {p : Ptr} (h : freeNode s p = some t) :
    t.trace = s.trace ∧ t.lists = s.lists ∧ t.refs = s.refs := by
  unfold freeNode at h
  by_cases hp : p = NULL
  · rw [if_pos hp] at h
    simp only [Option.some.injEq] at h
    subst h; exact ⟨rfl, rfl, rfl⟩
  · rw [if_neg hp] at h
    cases hn : s.nodes p with
    | none => rw [hn] at h; simp at h
    | some n =>
      rw [hn] at h
      simp only [Option.map_some', Option.some.injEq] at h
      subst h; exact ⟨rfl, rfl, rfl⟩

theorem storeSize_frame {s t : State} {p : Ptr} {v : Nat} (h : storeSize s p v = some t) :
    t.trace = s.trace ∧ t.nodes = s.nodes ∧ t.refs = s.refs := by
  unfold storeSize at h
  cases hn : s.lists p with
  | none => rw [hn] at h; simp at h
  | some n =>
    rw [hn] at h
    simp only [Option.map_some', Option.some.injEq] at h
    subst h; exact ⟨rfl, rfl, rfl⟩

theorem sole_entry_reset_frame {s t : State} {list : Ptr} (h : sole_entry_reset s list = some t) :
    t.trace = s.trace ∧ t.lists = s.lists ∧ t.refs = s.refs := by
  unfold sole_entry_reset at h
  simp only [Option.bind_eq_bind, Option.bind_eq_some] at h
  obtain ⟨l, -, h⟩ := h
  by_cases h1 : l.size = 1
  · rw [if_pos h1] at h
    simp only [Option.bind_eq_bind, Option.bind_eq_some] at h
    obtain ⟨u, hu, h⟩ := h
    obtain ⟨a1, a2, a3⟩ := storeNext_frame hu
    obtain ⟨b1, b2, b3⟩ := storePrev_frame h
    exact ⟨b1.trans a1, b2.trans a2, b3.trans a3⟩
  · rw [if_neg h1] at h
    simp only [Option.some.injEq] at h
    subst h; exact ⟨rfl, rfl, rfl⟩

/-- Whenever `list_remove_index` returns, the trace of callback calls and the
caller's variables are as they were before the call. -/
theorem list_remove_index_trace {s s2 : State} {list : Ptr} {i : Nat} {r : Ptr}
    (h : list_remove_index s list i = some (s2, r)) : s2.trace = s.trace ∧ s2.refs = s.refs := by
  unfold list_remove_index at h
  by_cases h0 : list = NULL
  · rw [if_pos h0] at h
    simp only [Option.some.injEq, Prod.mk.injEq] at h
    rw [← h.1]; exact ⟨rfl, rfl⟩
  · rw [if_neg h0] at h
    simp only [Option.bind_eq_bind, Option.bind_eq_some] at h
    obtain ⟨l, -, h⟩ := h
    by_cases hi : i ≥ l.size
    · rw [if_pos hi] at h
      simp only [Option.some.injEq, Prod.mk.injEq] at h
      rw [← h.1]; exact ⟨rfl, rfl⟩
    · rw [if_neg hi] at h
      simp only [Option.bind_eq_bind, Option.bind_eq_some, Option.some.injEq,
        Prod.mk.injEq] at h
      obtain ⟨hd, -, cur, -, c, -, s1, e1, c1, -, t2, e2, t3, e3, c3, -, t4, e4, l4, -, t5, e5,
        e6, -⟩ := h
      obtain ⟨a1, -, a3⟩ := storeNext_frame e1
      obtain ⟨b1, -, b3⟩ := storePrev_frame e2
      obtain ⟨c1, -, c3⟩ := sole_entry_reset_frame e3
      obtain ⟨d1, -, d3⟩ := freeNode_frame e4
      obtain ⟨f1, -, f3⟩ := storeSize_frame e5
      rw [← e6]
      exact ⟨by rw [f1, d1, c1, b1, a1], by rw [f3, d3, c3, b3, a3]⟩

/-- When `size` is not `1` the special case does nothing, on any heap. -/
theorem remove_general_eq_of_size_ne_one {s : State} {list : Ptr} {l : list_t} (i : Nat)
    (hl : s.lists list = some l) (h1 : l.size ≠ 1) :
    list_remove_index_general s list i = list_remove_index s list i := by
  unfold list_remove_index_general list_remove_index
  by_cases h0 : list = NULL
  · rw [if_pos h0, if_pos h0]
  · rw [if_neg h0, if_neg h0]
    simp only [hl, Option.bind_eq_bind, Option.some_bind]
    by_cases hi : i ≥ l.size
    · rw [if_pos hi, if_pos hi]
    · rw [if_neg hi, if_neg hi]
      cases s.nodes l.head with
      | none => rfl
      | some hd =>
        simp only [Option.some_bind]
        cases advance s i hd.next with
        | none => rfl
        | some cur =>
          simp only [Option.some_bind]
          cases s.nodes cur with
          | none => rfl
          | some c =>
            simp only [Option.some_bind]
            cases e1 : storeNext s c.prev c.next with
            | none => rfl
            | some s1 =>
              simp only [Option.some_bind]
              cases s1.nodes cur with
              | none => rfl
              | some c1 =>
                simp only [Option.some_bind]
                cases e2 : storePrev s1 c1.next c1.prev with
                | none => rfl
                | some s2 =>
                  simp only [Option.some_bind]
                  have hl2 : s2.lists list = some l := by
                    rw [(storePrev_frame e2).2.1, (storeNext_frame e1).2.1]; exact hl
                  have hr : sole_entry_reset s2 list = some s2 := by
                    simp only [sole_entry_reset, hl2, Option.bind_eq_bind, Option.some_bind,
                      if_neg h1]
                  rw [hr]
                  rfl

/-- On a well-formed list with a single entry, the general relinking alone
already resets the sentinel, so the special case changes nothing. -/
theorem remove_general_eq_sole {s : State} {list : Ptr} {l : list_t} {c : Ptr × Ptr}
    (h : RingRep s list l [c]) :
    list_remove_index_general s list 0 = list_remove_index s list 0 ∧
      ∃ s2, list_remove_index_general s list 0 = some (s2, c.2) ∧
        s2.nodes l.head = some ⟨NULL, l.head, l.head⟩ := by
  have hln := h.list_ne
  have hl := h.hlist
  have hh := h.hhead
  have hc := h.hseg.1
  have hnd := h.nodup
  have hs1 : l.size = 1 := h.hsize
  simp only [firstOf_cons, lastOf_cons, lastOf_nil, firstOf_nil] at hh hc
  simp only [List.map_cons, List.map_nil, List.nodup_cons, List.mem_singleton] at hnd
  have hhc : l.head ≠ c.1 := hnd.1
  have hch : c.1 ≠ l.head := fun e => hhc e.symm
  have hcn : c.1 ≠ NULL := (h.bound c.1 (by simp)).1
  have hadv2 : advance s 0 c.1 = some c.1 := rfl
  have hne : ¬ (0 ≥ l.size) := by omega
  have eA : list_remove_index s list 0 = some
      ((((((s.setNode l.head (some ⟨NULL, l.head, c.1⟩)).setNode l.head
        (some ⟨NULL, l.head, l.head⟩)).setNode l.head (some ⟨NULL, l.head, l.head⟩)).setNode
        l.head (some ⟨NULL, l.head, l.head⟩)).setNode c.1 none).setList list
        (some { l with size := (l.size + SIZE_MOD - 1) % SIZE_MOD }), c.2) := by
    simp only [list_remove_index, sole_entry_reset, storeNext, storePrev, storeSize, freeNode,
      Option.bind_eq_bind, Option.some_bind, Option.map_some', setNode_nodes, setNode_lists,
      setList_lists, setList_nodes,
      hln, hl, hne, hh, hadv2, hc, hhc, hch, hcn, if_pos hs1, if_true, if_false, ↓reduceIte]
  have eB : list_remove_index_general s list 0 = some
      ((((s.setNode l.head (some ⟨NULL, l.head, c.1⟩)).setNode l.head
        (some ⟨NULL, l.head, l.head⟩)).setNode c.1 none).setList list
        (some { l with size := (l.size + SIZE_MOD - 1) % SIZE_MOD }), c.2) := by
    simp only [list_remove_index_general, storeNext, storePrev, storeSize, freeNode,
      Option.bind_eq_bind, Option.some_bind, Option.map_some', setNode_nodes, setNode_lists,
      setList_lists, setList_nodes,
      hln, hl, hne, hh, hadv2, hc, hhc, hch, hcn, if_true, if_false, ↓reduceIte]
  refine ⟨?_, _, eB, by simp [hhc]⟩
  rw [eA, eB]
  congr 2
  apply State.ext_fields
  · rfl
  · funext a
    by_cases ha : a = c.1
    · simp [ha]
    · by_cases hb : a = l.head
      · simp [ha, hb]
      · simp [ha, hb]
  · rfl
  · rfl

theorem soleEntry_rep (cmp : Option (Ptr → Ptr → Int)) (x : Ptr) :
    RingRep (soleEntry cmp x) 1 ⟨5, cmp, 1, 10⟩ [(11, x)] := by
  refine ⟨by decide, rfl, rfl, rfl, ⟨rfl, trivial⟩, ?_, ?_⟩
  · show ([10, 11] : List Ptr).Nodup
    decide
  intro a ha
  have hlt : ∀ n : Nat, n < 2 ^ 64 → n < SIZE_MOD := by
    intro n hn; unfold SIZE_MOD; exact hn
  simp only [List.map_cons, List.map_nil, List.mem_cons, List.mem_singleton,
    List.not_mem_nil, or_false] at ha
  rcases ha with rfl | rfl <;> exact ⟨by decide, hlt _ (by decide)⟩

theorem list_remove_index_general_invalid (s : State) (list : Ptr) (l : list_t) (i : Nat)
    (hl : s.lists list = some l) (hi : l.size ≤ i) :
    list_remove_index_general s list i = some (s, NULL) := by
  unfold list_remove_index_general
  by_cases h0 : list = NULL
  · simp [h0]
  · have : i ≥ l.size := hi
    simp only [if_neg h0, hl, Option.bind_eq_bind, Option.some_bind, if_pos this]

/-- With no more fuel than entries, the teardown loop does not reach the sentinel. -/
theorem destroy_loop_short {lp : Ptr} {l : list_t} :
    ∀ (cells : List (Ptr × Ptr)) (p : Ptr) (fuel : Nat) (s : State),
      s.lists lp = some l → Seg s.nodes p cells l.head →
      (l.head :: cells.map Prod.fst).Nodup → (∀ a ∈ cells.map Prod.fst, a ≠ NULL) →
      fuel ≤ cells.length → destroy_loop lp fuel (firstOf cells l.head) s = none
  | _, _, 0, _, _, _, _, _, _ => rfl
  | [], _, fuel + 1, _, _, _, _, _, hf => by simp at hf
  | c :: rest, _, fuel + 1, s, hl, hseg, hnd, hnn, hf => by
    rw [List.map_cons, List.nodup_cons, List.nodup_cons] at hnd
    have hne : c.1 ≠ l.head := by
      intro e; apply hnd.1; rw [← e]; simp
    have hc0 : c.1 ≠ NULL := hnn c.1 (by simp)
    let s1 : State := if l.destroy_data ≠ NULL then s.log (.destroy l.destroy_data c.2) else s
    have hs1n : s1.nodes = s.nodes := by simp only [s1]; split <;> rfl
    have hs1l : s1.lists = s.lists := by simp only [s1]; split <;> rfl
    have hseg2 : Seg (s1.setNode c.1 none).nodes c.1 rest l.head := by
      refine Seg.frame ?_ hseg.2
      intro a ha
      have : a ≠ c.1 := by intro e; rw [e] at ha; exact hnd.2.1 ha
      simp [this, hs1n]
    have hnd2 : (l.head :: rest.map Prod.fst).Nodup :=
      List.nodup_cons.mpr ⟨fun hm => hnd.1 (List.mem_cons_of_mem _ hm), hnd.2.2⟩
    have ih := destroy_loop_short rest c.1 fuel (s1.setNode c.1 none)
      (by simpa [hs1l] using hl) hseg2 hnd2
      (fun a ha => hnn a (by simp only [List.map_cons, List.mem_cons]; right; exact ha))
      (by simpa using hf)
    have hfree : freeNode s1 c.1 = some (s1.setNode c.1 none) := by
      simp [freeNode, hc0, hs1n, hseg.1]
    simp only [firstOf_cons, destroy_loop, hl, Option.bind_eq_bind, Option.some_bind, if_neg hne,
      hseg.1]
    show (freeNode s1 c.1).bind (fun s2 => destroy_loop lp fuel (firstOf rest l.head) s2) = none
    rw [hfree]; exact ih

/-- With no more fuel than entries, `list_destroy` on a well-formed list has no result. -/
theorem list_destroy_short {s : State} {lp : Ptr} {l : list_t} {cells : List (Ptr × Ptr)}
    (h : RingRep s lp l cells) (r : Ptr) (hr0 : r ≠ NULL) (hr : s.refs r = some lp)
    (fuel : Nat) (hf : fuel ≤ cells.length) : list_destroy fuel s r = none := by
  have hnn : ∀ a ∈ cells.map Prod.fst, a ≠ NULL := fun a ha =>
    (h.bound a (List.mem_cons_of_mem _ ha)).1
  have e := destroy_loop_short cells l.head fuel s h.hlist h.hseg h.nodup hnn hf
  simp only [list_destroy, if_neg hr0, hr, Option.bind_eq_bind, Option.some_bind,
    if_neg h.list_ne, h.hlist, h.hhead, e, Option.none_bind]

/-- Logging callback calls does not disturb a ring representation. -/
theorem RingRep.logAll {s : State} {list : Ptr} {l : list_t} {cells : List (Ptr × Ptr)}
    (h : RingRep s list l cells) (evs : List Event) : RingRep (s.logAll evs) list l cells :=
  ⟨h.list_ne, h.hlist, h.hsize, h.hhead, h.hseg, h.nodup, h.bound⟩

/-- On a well-formed list with a comparison callback, `list_indexof` returns
after comparing a front part of the entries, in order and each once: either
all of them without a match (result `-1`), or up to and including the first
matching entry (result: the wrapped position). -/
theorem list_indexof_scan {s : State} {list : Ptr} {l : list_t} {cells : List (Ptr × Ptr)}
    (h : RingRep s list l cells) {cmp : Ptr → Ptr → Int} (hc : l.compare_to = some cmp)
    (d : Ptr) (fuel : Nat) (hf : cells.length < fuel) :
    ∃ k r, list_indexof fuel s list d
        = some (s.logAll ((cells.take k).map fun c => Event.compare c.2 d), r) ∧
      k ≤ cells.length ∧
      ((k = cells.length ∧ r = -1 ∧ ∀ c ∈ cells, cmp c.2 d ≠ 0) ∨
        (∃ c, 0 < k ∧ cells[k - 1]? = some c ∧ cmp c.2 d = 0 ∧ r = wrap_int ((k - 1 : Nat) : Int) ∧
          ∀ j x, j < k - 1 → cells[j]? = some x → cmp x.2 d ≠ 0)) := by
  by_cases hex : ∃ c ∈ cells, cmp c.2 d = 0
  · obtain ⟨pre, c, post, e, hpre, hm⟩ := first_match_split (fun c => cmp c.2 d = 0) cells hex
    subst e
    obtain ⟨g1, g2⟩ := getElem?_split pre c post
    refine ⟨pre.length + 1, wrap_int pre.length, ?_, by simp, Or.inr ⟨c, Nat.succ_pos _, ?_, hm, ?_, ?_⟩⟩
    · rw [list_indexof_hit pre c post h hc d fuel (by simp at hf; omega) hpre hm]
      congr 3
      simp [List.take_append_eq_append_take]
    · simpa using g1
    · simp
    · intro j x hj hx
      exact hpre x (g2 j x (by simpa using hj) hx)
  · have hall : ∀ c ∈ cells, cmp c.2 d ≠ 0 := fun c hc2 hz => hex ⟨c, hc2, hz⟩
    refine ⟨cells.length, -1, ?_, Nat.le_refl _, Or.inl ⟨rfl, rfl, hall⟩⟩
    rw [list_indexof_miss h hc d fuel hf hall, List.take_length]

/-- The front entry of the long list holds the payload `7`. -/
theorem bigCells_head (k : Nat) : (bigCells (k + 1))[0]? = some (k + 3, 7) := by
  simp [bigCells, List.range_succ]

/-- The long list after the scan: `list_indexof` returns the wrapped position
of the last entry and leaves a well-formed list with the same entries. -/
theorem big_list_scan_state (k : Nat) (hk : k + 3 ≤ 2 ^ 64) :
    ∃ s l, add_all bigInit 1 (bigAdds k) = some s ∧ RingRep s 1 l (bigCells k) ∧
      l.compare_to = some cmp_ptr ∧
      ∀ fuel, k < fuel →
        ∃ s1, list_indexof fuel s 1 9 = some (s1, wrap_int k) ∧ RingRep s1 1 l (bigCells k) := by
  obtain ⟨s, l, e, r, hc, g1, g2, -⟩ := big_list_scan k hk
  refine ⟨s, l, e, r, hc, ?_⟩
  intro fuel hf
  obtain ⟨e1, e2, e3⟩ := split_of_getElem? (bigCells k) k (2, 9) g1
  have r2 := r
  rw [e1] at r2
  have hpre : ∀ x ∈ (bigCells k).take k, cmp_ptr x.2 9 ≠ 0 := by
    intro x hx
    obtain ⟨j, hj, hjx⟩ := e3 x hx
    exact g2 j x hj hjx
  have hit := list_indexof_hit _ (2, 9) _ r2 hc 9 fuel (by rw [e2]; exact hf) hpre
    (by simp [cmp_ptr])
  rw [e2] at hit
  exact ⟨_, hit, r.logAll _⟩

/-- The long list after the scan, and the removal at index `0` that follows:
the removal returns the payload `7` of the front entry. -/
theorem big_list_scan_remove (k : Nat) (hpos : 0 < k) (hk : k + 3 ≤ 2 ^ 64) :
    ∃ s l, add_all bigInit 1 (bigAdds k) = some s ∧ RingRep s 1 l (bigCells k) ∧
      l.compare_to = some cmp_ptr ∧
      ∀ fuel, k < fuel →
        ∃ s1 s2, list_indexof fuel s 1 9 = some (s1, wrap_int k) ∧
          list_remove_index s1 1 0 = some (s2, 7) := by
  obtain ⟨s, l, e, r, hc, g⟩ := big_list_scan_state k hk
  refine ⟨s, l, e, r, hc, ?_⟩
  intro fuel hf
  obtain ⟨s1, e1, r1⟩ := g fuel hf
  obtain ⟨j, hj⟩ := Nat.exists_eq_succ_of_ne_zero (Nat.pos_iff_ne_zero.mp hpos)
  have hlen : 0 < (bigCells k).length := by simp [bigCells]
  obtain ⟨s2, e2, -⟩ := list_remove_index_at r1 0 hlen
  have hhead : (bigCells k)[0]? = some (j + 3, 7) := by
    rw [hj]; exact bigCells_head j
  rw [List.getElem?_eq_getElem hlen] at hhead
  rw [Option.some.inj hhead] at e2
  exact ⟨s1, s2, e1, e2⟩

/-- Whenever the scan of `list_indexof` returns, it has only appended to the trace. -/
theorem indexof_loop_frame (list d : Ptr) :
    ∀ (fuel : Nat) (cur : Ptr) (index : Int) (s s2 : State) (r : Int),
      indexof_loop list d fuel cur index s = some (s2, r) →
        s2.lists = s.lists ∧ s2.nodes = s.nodes ∧ s2.refs = s.refs
  | 0, _, _, _, _, _, h => by simp [indexof_loop] at h
  | fuel + 1, cur, index, s, s2, r, h => by
    simp only [indexof_loop, Option.bind_eq_bind, Option.bind_eq_some] at h
    obtain ⟨l, -, h⟩ := h
    by_cases hc : cur = l.head
    · rw [if_pos hc] at h
      simp only [Option.some.injEq, Prod.mk.injEq] at h
      rw [← h.1]; exact ⟨rfl, rfl, rfl⟩
    · rw [if_neg hc] at h
      simp only [Option.bind_eq_bind, Option.bind_eq_some] at h
      obtain ⟨n, -, cmp, -, h⟩ := h
      by_cases hm : cmp n.data d = 0
      · rw [if_pos hm] at h
        simp only [Option.some.injEq, Prod.mk.injEq] at h
        rw [← h.1]; exact ⟨rfl, rfl, rfl⟩
      · rw [if_neg hm] at h
        exact indexof_loop_frame list d fuel _ _ (s.log (Event.compare n.data d)) _ _ h

/-- Whenever `list_indexof` returns, the three heaps are as they were. -/
theorem list_indexof_frame {fuel : Nat} {s s2 : State} {list d : Ptr} {r : Int}
    (h : list_indexof fuel s list d = some (s2, r)) :
    s2.lists = s.lists ∧ s2.nodes = s.nodes ∧ s2.refs = s.refs := by
  unfold list_indexof at h
  by_cases h0 : list = NULL
  · rw [if_pos h0] at h
    simp only [Option.some.injEq, Prod.mk.injEq] at h
    rw [← h.1]; exact ⟨rfl, rfl, rfl⟩
  · rw [if_neg h0] at h
    simp only [Option.bind_eq_bind, Option.bind_eq_some] at h
    obtain ⟨l, -, h⟩ := h
    by_cases hz : l.size = 0
    · rw [if_pos hz] at h
      simp only [Option.some.injEq, Prod.mk.injEq] at h
      rw [← h.1]; exact ⟨rfl, rfl, rfl⟩
    · rw [if_neg hz] at h
      simp only [Option.bind_eq_bind, Option.bind_eq_some] at h
      obtain ⟨hd, -, h⟩ := h
      exact indexof_loop_frame list d fuel _ _ _ _ _ h

/-! ## The claims -/

/-- C1: on a well-formed list with entries `cells` (payload sequence
`cells.map Prod.snd`, size `cells.length`), a `list_add` of payload `x` whose
allocation succeeds returns the same list pointer, and afterwards the list is
well formed with the new entry in front: the payload sequence is `x` followed
by the old one and the size is one more. -/
theorem C1_list_add_front {s : State} {list : Ptr} {l : list_t} {cells : List (Ptr × Ptr)}
    (h : RingRep s list l cells) (x m : Ptr) (hm : FreshNode s m) :
    ∃ s2, list_add s list x m = some (s2, list) ∧
      RingRep s2 list { l with size := l.size + 1 } ((m, x) :: cells) ∧
      payloads s2 list = some (x :: cells.map Prod.snd) ∧
      sizeOf s2 list = some (cells.length + 1) := by
  obtain ⟨s2, e, r, -⟩ := list_add_rep h x m hm
  exact ⟨s2, e, r, r.payloads_eq, r.sizeOf_eq⟩

theorem C1_list_add_front_witness :
    ∃ s2, list_add scenario 1 400 14 = some (s2, 1) ∧
      RingRep s2 1 { scenarioList with size := scenarioList.size + 1 } ((14, 400) :: scenarioCells) ∧
      payloads s2 1 = some [400, 300, 200, 100] ∧ sizeOf s2 1 = some 4 :=
  C1_list_add_front scenario_rep 400 14 scenario_fresh

/-- C2: on a well-formed list with entries `cells` and for an index `i` below
the size, `list_remove_index` returns the payload at position `i`, and
afterwards the list is well formed with exactly that entry erased: the payload
sequence is the old one without position `i`, the size is one less. -/
theorem C2_list_remove_index_valid {s : State} {list : Ptr} {l : list_t}
    {cells : List (Ptr × Ptr)} (h : RingRep s list l cells) (i : Nat) (hi : i < cells.length) :
    ∃ s2, list_remove_index s list i = some (s2, cells[i].2) ∧
      RingRep s2 list { l with size := l.size - 1 } (cells.eraseIdx i) ∧
      payloads s2 list = some ((cells.map Prod.snd).eraseIdx i) ∧
      sizeOf s2 list = some (cells.length - 1) := by
  obtain ⟨s2, e, r, -⟩ := list_remove_index_at h i hi
  refine ⟨s2, e, r, ?_, ?_⟩
  · rw [r.payloads_eq]
    congr 1
    rw [List.eraseIdx_eq_take_drop_succ, List.eraseIdx_eq_take_drop_succ]
    simp [List.map_take, List.map_drop]
  · rw [r.sizeOf_eq, List.length_eraseIdx, if_pos hi]

theorem C2_list_remove_index_valid_witness :
    ∃ s2, list_remove_index scenario 1 1 = some (s2, 200) ∧
      RingRep s2 1 { scenarioList with size := scenarioList.size - 1 } [(13, 300), (11, 100)] ∧
      payloads s2 1 = some [300, 100] ∧ sizeOf s2 1 = some 2 :=
  C2_list_remove_index_valid scenario_rep 1 (by decide)

/-- C3: for every state in which `list` points to a list structure and every
index at or beyond `size`, `list_remove_index` returns `NULL` and the state
afterwards is the state before: size, payloads and every link are untouched. -/
theorem C3_list_remove_index_invalid (s : State) (list : Ptr) (l : list_t) (i : Nat)
    (hl : s.lists list = some l) (hi : l.size ≤ i) :
    list_remove_index s list i = some (s, NULL) :=
  list_remove_index_invalid s list l i hl hi

theorem C3_list_remove_index_invalid_witness :
    list_remove_index scenario 1 3 = some (scenario, NULL) :=
  C3_list_remove_index_invalid scenario 1 scenarioList 3 rfl (by decide)

/-- C4 (amended): on a well-formed list with a comparison callback `cmp`, if
the entry at position `i` matches the query (`cmp payload d = 0`, entry payload
first), no earlier position matches, and `i` is at most `INT_MAX`, then
`list_indexof` (with fuel above `i`) returns `i`, the smallest matching
position. -/
theorem C4_list_indexof_first_match {s : State} {list : Ptr} {l : list_t}
    {cells : List (Ptr × Ptr)} {cmp : Ptr → Ptr → Int} (h : RingRep s list l cells)
    (hc : l.compare_to = some cmp) (d : Ptr) (i : Nat) (c : Ptr × Ptr)
    (hi : cells[i]? = some c) (hm : cmp c.2 d = 0)
    (hfirst : ∀ j x, j < i → cells[j]? = some x → cmp x.2 d ≠ 0)
    (hmax : (i : Int) ≤ INT_MAX) (fuel : Nat) (hf : i < fuel) :
    (list_indexof fuel s list d).map Prod.snd = some (i : Int) := by
  obtain ⟨e1, e2, e3⟩ := split_of_getElem? cells i c hi
  rw [e1] at h
  have hpre : ∀ x ∈ cells.take i, cmp x.2 d ≠ 0 := by
    intro x hx
    obtain ⟨j, hj, hjx⟩ := e3 x hx
    exact hfirst j x hj hjx
  rw [list_indexof_hit _ c _ h hc d fuel (by rw [e2]; exact hf) hpre hm, e2]
  simp only [Option.map_some']
  rw [wrap_int_of_range _ (Int.natCast_nonneg i) hmax]

theorem C4_list_indexof_first_match_witness :
    (list_indexof 4 scenario 1 200).map Prod.snd = some ((1 : Nat) : Int) :=
  C4_list_indexof_first_match scenario_rep rfl 200 1 (12, 200) rfl (by decide)
    (by
      intro j x hj hx
      have hj0 : j = 0 := by omega
      subst hj0
      have hx2 : x = (13, 300) := by
        have : scenarioCells[0]? = some ((13 : Ptr), (300 : Ptr)) := rfl
        rw [this] at hx; exact (Option.some.inj hx).symm
      rw [hx2]; decide)
    (by decide) 4 (by decide)

/-- C4 (counterexample): the well-formed list built by `2147483649` adds holds
its only match for the query `9` at position `2147483648`, no earlier position
matches, yet `list_indexof` returns `-2147483648`, not that position. -/
theorem C4_list_indexof_overflow :
    ∃ s l, add_all bigInit 1 (bigAdds 2147483648) = some s ∧
      RingRep s 1 l (bigCells 2147483648) ∧ l.compare_to = some cmp_ptr ∧
      (bigCells 2147483648)[2147483648]? = some (2, 9) ∧ cmp_ptr 9 9 = 0 ∧
      (∀ j x, j < 2147483648 → (bigCells 2147483648)[j]? = some x → cmp_ptr x.2 9 ≠ 0) ∧
      ∀ fuel, 2147483648 < fuel →
        (list_indexof fuel s 1 9).map Prod.snd = some (-2147483648) := by
  obtain ⟨s, l, e, r, hc, g1, g2, g3⟩ := big_list_scan 2147483648 (by norm_num)
  refine ⟨s, l, e, r, hc, g1, by decide, g2, ?_⟩
  intro fuel hf
  rw [g3 fuel hf]
  rfl

/-- C5 (amended): on a well-formed list of at most `INT_MAX` entries with a
comparison callback, `list_indexof` (with fuel above the size) returns `-1`
exactly when no entry's payload compares equal to the query, and otherwise
returns a value `i` with `0 ≤ i < size`. -/
theorem C5_list_indexof_range {s : State} {list : Ptr} {l : list_t}
    {cells : List (Ptr × Ptr)} {cmp : Ptr → Ptr → Int} (h : RingRep s list l cells)
    (hc : l.compare_to = some cmp) (d : Ptr) (hsz : (cells.length : Int) ≤ INT_MAX)
    (fuel : Nat) (hf : cells.length < fuel) :
    ∃ s2 r, list_indexof fuel s list d = some (s2, r) ∧
      (r = -1 ↔ ∀ c ∈ cells, cmp c.2 d ≠ 0) ∧
      (r ≠ -1 → 0 ≤ r ∧ r < (cells.length : Int)) := by
  by_cases hex : ∃ c ∈ cells, cmp c.2 d = 0
  · obtain ⟨pre, c, post, e, hpre, hm⟩ := first_match_split (fun c => cmp c.2 d = 0) cells hex
    subst e
    have hlen : pre.length < (pre ++ c :: post).length := by simp
    have hw : wrap_int (pre.length : Int) = (pre.length : Int) :=
      wrap_int_of_range _ (Int.natCast_nonneg _) (by omega)
    refine ⟨_, _, list_indexof_hit pre c post h hc d fuel (by omega) hpre hm, ?_, ?_⟩
    · rw [hw]
      constructor
      · intro hneg; omega
      · intro hall; exact absurd hm (hall c (by simp))
    · intro _; rw [hw]; constructor <;> omega
  · have hall : ∀ c ∈ cells, cmp c.2 d ≠ 0 := fun c hc2 hz => hex ⟨c, hc2, hz⟩
    refine ⟨_, _, list_indexof_miss h hc d fuel hf hall, ?_, ?_⟩
    · exact ⟨fun _ => hall, fun _ => rfl⟩
    · intro hne; exact absurd rfl hne

theorem C5_list_indexof_range_witness :
    ∃ s2 r, list_indexof 4 scenario 1 250 = some (s2, r) ∧
      (r = -1 ↔ ∀ c ∈ scenarioCells, cmp_ptr c.2 250 ≠ 0) ∧
      (r ≠ -1 → 0 ≤ r ∧ r < (scenarioCells.length : Int)) :=
  C5_list_indexof_range scenario_rep rfl 250 (by decide) 4 (by decide)

/-- C5 (counterexample): the well-formed list built by `4294967296` adds holds
an entry whose payload compares equal to the query `9`, yet `list_indexof`
returns the not-found value `-1`. -/
theorem C5_list_indexof_wraps_to_not_found :
    ∃ s l, add_all bigInit 1 (bigAdds 4294967295) = some s ∧
      RingRep s 1 l (bigCells 4294967295) ∧ l.compare_to = some cmp_ptr ∧
      (bigCells 4294967295)[4294967295]? = some (2, 9) ∧ cmp_ptr 9 9 = 0 ∧
      ∀ fuel, 4294967295 < fuel → (list_indexof fuel s 1 9).map Prod.snd = some (-1) := by
  obtain ⟨s, l, e, r, hc, g1, -, g3⟩ := big_list_scan 4294967295 (by norm_num)
  refine ⟨s, l, e, r, hc, g1, by decide, ?_⟩
  intro fuel hf
  rw [g3 fuel hf]
  rfl

/-- C6: on a well-formed list, a successful `list_add` of `x` followed at once
by `list_remove_index` at index `0` returns `x` and restores the list: the same
entries, hence the same size and the same payload sequence as before the add. -/
theorem C6_add_remove_roundtrip {s : State} {list : Ptr} {l : list_t}
    {cells : List (Ptr × Ptr)} (h : RingRep s list l cells) (x m : Ptr) (hm : FreshNode s m) :
    ∃ s1 s2, list_add s list x m = some (s1, list) ∧
      list_remove_index s1 list 0 = some (s2, x) ∧
      RingRep s2 list l cells ∧ sizeOf s2 list = sizeOf s list ∧
      payloads s2 list = payloads s list := by
  obtain ⟨s1, e1, r1, -⟩ := list_add_rep h x m hm
  obtain ⟨s2, e2, r2, -⟩ := list_remove_index_rep [] (m, x) cells r1
  have r3 : RingRep s2 list l cells := by
    have e := list_t.size_restore l
    simp only [List.nil_append] at r2
    rw [e] at r2; exact r2
  exact ⟨s1, s2, e1, e2, r3, by rw [r3.sizeOf_eq, h.sizeOf_eq],
    by rw [r3.payloads_eq, h.payloads_eq]⟩

theorem C6_add_remove_roundtrip_witness :
    ∃ s1 s2, list_add scenario 1 400 14 = some (s1, 1) ∧
      list_remove_index s1 1 0 = some (s2, 400) ∧
      RingRep s2 1 scenarioList scenarioCells ∧ sizeOf s2 1 = sizeOf scenario 1 ∧
      payloads s2 1 = payloads scenario 1 :=
  C6_add_remove_roundtrip scenario_rep 400 14 scenario_fresh

/-- C7: the ring invariants (`RingInv`: `size + 1` hops along `next`, and
along `prev`, first return to the sentinel; the nodes on the ring are pairwise
distinct, so `size` counts the non-sentinel entries; every ring node `e` has
`e.next.prev == e` and `e.prev.next == e`; the sentinel's payload is null) are
preserved by every successful `list_add` and by every `list_remove_index`,
whether the index is valid or not, and they hold for the list that a
successful `list_init` returns. -/
theorem C7_ring_invariants_preserved {s : State} {list : Ptr} (h : RingInv s list) :
    (∀ x m, FreshNode s m →
        ∃ s2, list_add s list x m = some (s2, list) ∧ RingInv s2 list) ∧
      (∀ i, ∃ s2 r, list_remove_index s list i = some (s2, r) ∧ RingInv s2 list) ∧
      (∀ s0 d cmp ml mh, FreshList s0 ml → FreshNode s0 mh →
        (list_init s0 d cmp ml mh).2 = ml ∧ RingInv (list_init s0 d cmp ml mh).1 ml) := by
  obtain ⟨l, cells, hr⟩ := h.wellFormed
  refine ⟨?_, ?_, ?_⟩
  · intro x m hm
    obtain ⟨s2, e, r, -⟩ := list_add_rep hr x m hm
    exact ⟨s2, e, r.inv⟩
  · intro i
    by_cases hi : i < cells.length
    · obtain ⟨s2, e, r, -⟩ := list_remove_index_at hr i hi
      exact ⟨s2, _, e, r.inv⟩
    · refine ⟨s, NULL, list_remove_index_invalid s list l i hr.hlist ?_, h⟩
      rw [hr.hsize]; omega
  · intro s0 d cmp ml mh hl hh
    obtain ⟨e, r⟩ := list_init_rep s0 d cmp ml mh hl hh
    exact ⟨e, r.inv⟩

theorem C7_ring_invariants_preserved_witness :
    RingInv scenario 1 ∧
      (∀ x m, FreshNode scenario m →
        ∃ s2, list_add scenario 1 x m = some (s2, 1) ∧ RingInv s2 1) ∧
      (∀ i, ∃ s2 r, list_remove_index scenario 1 i = some (s2, r) ∧ RingInv s2 1) ∧
      (∀ s0 d cmp ml mh, FreshList s0 ml → FreshNode s0 mh →
        (list_init s0 d cmp ml mh).2 = ml ∧ RingInv (list_init s0 d cmp ml mh).1 ml) :=
  ⟨scenario_rep.inv, C7_ring_invariants_preserved scenario_rep.inv⟩

/-- C8: on a well-formed list of `N` entries held in the caller's variable at
`r`, `list_destroy` (with fuel above `N`) sets that variable to `NULL`; when a
destroy callback is configured the calls it makes are exactly one call per
entry, on the entry's payload, front to back (`N` calls, none for the
sentinel), and when none is configured no call is made. -/
theorem C8_list_destroy_calls {s : State} {lp : Ptr} {l : list_t} {cells : List (Ptr × Ptr)}
    (h : RingRep s lp l cells) (r : Ptr) (hr0 : r ≠ NULL) (hr : s.refs r = some lp)
    (fuel : Nat) (hf : cells.length < fuel) :
    ∃ s2, list_destroy fuel s r = some s2 ∧ s2.refs r = some NULL ∧
      (l.destroy_data ≠ NULL →
        s2.trace = s.trace ++ cells.map (fun c => Event.destroy l.destroy_data c.2)) ∧
      (l.destroy_data = NULL → s2.trace = s.trace) := by
  obtain ⟨s2, e, r1, -, r3, -⟩ := list_destroy_rep h r hr0 hr fuel hf
  refine ⟨s2, e, r1, ?_, ?_⟩
  · intro hd; rw [r3, destroyCalls, if_pos hd]
  · intro hd; rw [r3, destroyCalls, if_neg (not_not.mpr hd), List.append_nil]

theorem C8_list_destroy_calls_witness :
    ∃ s2, list_destroy 4 scenario 2 = some s2 ∧ s2.refs 2 = some NULL ∧
      (scenarioList.destroy_data ≠ NULL →
        s2.trace = scenario.trace ++
          scenarioCells.map (fun c => Event.destroy scenarioList.destroy_data c.2)) ∧
      (scenarioList.destroy_data = NULL → s2.trace = scenario.trace) :=
  C8_list_destroy_calls scenario_rep 2 (by decide) rfl 4 (by decide)

/-- C9: `list_destroy` is idempotent on a reference: after destroying the
well-formed list held in the variable at `r`, a second `list_destroy` on the
same variable returns the state unchanged (no callback call, no write), with
any fuel; likewise `list_destroy` of a null reference-pointer, or of a variable
that holds `NULL`, leaves every state unchanged. -/
theorem C9_list_destroy_idempotent {s : State} {lp : Ptr} {l : list_t}
    {cells : List (Ptr × Ptr)} (h : RingRep s lp l cells) (r : Ptr) (hr0 : r ≠ NULL)
    (hr : s.refs r = some lp) (fuel : Nat) (hf : cells.length < fuel) :
    ∃ s2, list_destroy fuel s r = some s2 ∧
      (∀ fuel2, list_destroy fuel2 s2 r = some s2) ∧
      (∀ fuel2 t, list_destroy fuel2 t NULL = some t) ∧
      (∀ fuel2 t q, t.refs q = some NULL → list_destroy fuel2 t q = some t) := by
  obtain ⟨s2, e, r1, -⟩ := list_destroy_rep h r hr0 hr fuel hf
  exact ⟨s2, e, fun fuel2 => list_destroy_absent fuel2 s2 r r1, list_destroy_null,
    list_destroy_absent⟩

theorem C9_list_destroy_idempotent_witness :
    ∃ s2, list_destroy 4 scenario 2 = some s2 ∧
      (∀ fuel2, list_destroy fuel2 s2 2 = some s2) ∧
      (∀ fuel2 t, list_destroy fuel2 t NULL = some t) ∧
      (∀ fuel2 t q, t.refs q = some NULL → list_destroy fuel2 t q = some t) :=
  C9_list_destroy_idempotent scenario_rep 2 (by decide) rfl 4 (by decide)

/-- C10: starting from the list that a successful `list_init` returns, any run
of `N` successful `list_add` calls (fresh, pairwise distinct nodes) leaves
`size` equal to `N`, and, when the comparison callback returns zero on equal
payloads, `list_indexof` of the payload added last returns index `0`. -/
theorem C10_adds_size_and_front (s : State) (d : Ptr) (cmp : Ptr → Ptr → Int) (ml mh : Ptr)
    (adds : List (Ptr × Ptr)) (hl : FreshList s ml) (hh : FreshNode s mh)
    (hnd : (mh :: adds.map Prod.fst).Nodup) (hfr : ∀ m ∈ adds.map Prod.fst, FreshNode s m)
    (hcmp : ∀ x, cmp x x = 0) :
    ∃ sN, add_all (list_init s d (some cmp) ml mh).1 ml adds = some sN ∧
      sizeOf sN ml = some adds.length ∧
      ∀ c, adds.getLast? = some c → ∀ fuel, 0 < fuel →
        (list_indexof fuel sN ml c.2).map Prod.snd = some 0 := by
  obtain ⟨-, r0⟩ := list_init_rep s d (some cmp) ml mh hl hh
  rw [List.nodup_cons] at hnd
  have hfr0 : ∀ m ∈ adds.map Prod.fst, FreshNode (list_init s d (some cmp) ml mh).1 m := by
    intro m hm
    obtain ⟨a1, a2, a3⟩ := hfr m hm
    refine ⟨a1, a2, ?_⟩
    have hne : m ≠ mh := by intro e; rw [e] at hm; exact hnd.1 hm
    simp [list_init, hl.1, hh.1, hne, a3]
  obtain ⟨sN, lN, e, r, hc, -⟩ := add_all_rep adds _ _ _ r0 hnd.2 hfr0
  simp only [List.append_nil] at r
  refine ⟨sN, e, by rw [r.sizeOf_eq, List.length_reverse], ?_⟩
  intro c hlast fuel hfuel
  have hsplit : adds.reverse = [] ++ c :: adds.dropLast.reverse := by
    have := List.dropLast_append_getLast? c hlast
    rw [← this]; simp
  rw [hsplit] at r
  rw [list_indexof_hit [] c _ r hc c.2 fuel (by simpa using hfuel) (by simp) (hcmp c.2)]
  simp [wrap_int]

theorem C10_adds_size_and_front_witness :
    ∃ sN, add_all (list_init State.empty 5 (some cmp_ptr) 1 10).1 1
        [(11, 100), (12, 200), (13, 300)] = some sN ∧
      sizeOf sN 1 = some 3 ∧
      ∀ c, [((11 : Ptr), (100 : Ptr)), (12, 200), (13, 300)].getLast? = some c → ∀ fuel, 0 < fuel →
        (list_indexof fuel sN 1 c.2).map Prod.snd = some 0 :=
  C10_adds_size_and_front State.empty 5 cmp_ptr 1 10 [(11, 100), (12, 200), (13, 300)]
    ⟨by decide, by unfold SIZE_MOD; decide, rfl⟩ ⟨by decide, by unfold SIZE_MOD; decide, rfl⟩
    (by decide)
    (by
      intro m hm
      simp only [List.map_cons, List.map_nil, List.mem_cons, List.mem_singleton,
        List.not_mem_nil, or_false] at hm
      rcases hm with rfl | rfl | rfl <;> exact ⟨by decide, by unfold SIZE_MOD; decide, rfl⟩)
    (by intro x; simp [cmp_ptr])

/-- C11: when the allocation of the new entry fails (`malloc` returns `NULL`),
`list_add` returns `NULL` and the state afterwards is the state before, so
size, payloads and every `next`/`prev` link are untouched. -/
theorem C11_list_add_alloc_failure (s : State) (list data : Ptr) :
    list_add s list data NULL = some (s, NULL) := by
  unfold list_add
  by_cases h : list = NULL
  · rw [if_pos h]
  · rw [if_neg h, if_pos rfl]

/-- C12: on every list whose `size` is `0`, `list_indexof` returns `-1` for
every query and leaves the state, trace included, as it was: the comparison
callback is not called, so the result does not depend on one being
configured (nor on the fuel). -/
theorem C12_list_indexof_empty (fuel : Nat) (s : State) (list : Ptr) (l : list_t) (d : Ptr)
    (hl : s.lists list = some l) (h0 : l.size = 0) :
    list_indexof fuel s list d = some (s, -1) := by
  unfold list_indexof
  by_cases h : list = NULL
  · rw [if_pos h]
  · simp only [if_neg h, hl, Option.bind_eq_bind, Option.some_bind, if_pos h0]

theorem C12_list_indexof_empty_witness :
    list_indexof 0 emptyNoCallbacks 1 200 = some (emptyNoCallbacks, -1) :=
  C12_list_indexof_empty 0 emptyNoCallbacks 1 ⟨NULL, none, 0, 10⟩ 200 rfl rfl

/-- C13: for every pair of callbacks, present or absent, a `list_init` whose
two allocations succeed returns the new list pointer; the list has `size == 0`,
stores the two callbacks as passed, and its sentinel has a null payload and
`next` and `prev` pointing to itself.  If the first allocation fails, or the
second one does, it returns `NULL` and the state is the one before the call:
no partial object is left. -/
theorem C13_list_init (s : State) (d : Ptr) (cmp : Option (Ptr → Ptr → Int)) (ml mh : Ptr)
    (hl : FreshList s ml) :
    (mh ≠ NULL →
        (list_init s d cmp ml mh).2 = ml ∧
        (list_init s d cmp ml mh).1.lists ml = some ⟨d, cmp, 0, mh⟩ ∧
        (list_init s d cmp ml mh).1.nodes mh = some ⟨NULL, mh, mh⟩) ∧
      list_init s d cmp ml NULL = (s, NULL) ∧
      list_init s d cmp NULL mh = (s, NULL) := by
  obtain ⟨hl0, -, hl2⟩ := hl
  refine ⟨?_, ?_, ?_⟩
  · intro hh
    simp [list_init, hl0, hh]
  · have e : (s.setList ml (some ⟨d, cmp, 0, NULL⟩)).setList ml none = s := by
      apply State.ext_fields
      · funext a
        by_cases ha : a = ml
        · simp [ha, hl2]
        · simp [ha]
      · rfl
      · rfl
      · rfl
    simp only [list_init, if_neg hl0, if_true]
    rw [e]
  · simp [list_init]

theorem C13_list_init_witness :
    ((5 : Ptr) ≠ NULL →
        (list_init scenario 7 (some cmp_ptr) 3 5).2 = 3 ∧
        (list_init scenario 7 (some cmp_ptr) 3 5).1.lists 3 = some ⟨7, some cmp_ptr, 0, 5⟩ ∧
        (list_init scenario 7 (some cmp_ptr) 3 5).1.nodes 5 = some ⟨NULL, 5, 5⟩) ∧
      list_init scenario 7 (some cmp_ptr) 3 NULL = (scenario, NULL) ∧
      list_init scenario 7 (some cmp_ptr) NULL 5 = (scenario, NULL) :=
  C13_list_init scenario 7 (some cmp_ptr) 3 5 ⟨by decide, by unfold SIZE_MOD; decide, rfl⟩

/-- C14: `list_remove_index` never calls the destroy callback.  On every
well-formed list and for every index, valid or not, the call returns with the
trace of callback calls exactly as before (so the payloads the destroy
callback has been called on are the same), and for a valid index the value
returned is the payload reference stored in the removed entry; moreover on any
heap, whenever the call returns, the trace is unchanged. -/
theorem C14_list_remove_index_no_destroy {s : State} {list : Ptr} {l : list_t}
    {cells : List (Ptr × Ptr)} (h : RingRep s list l cells) (i : Nat) :
    (∃ s2 r, list_remove_index s list i = some (s2, r) ∧ s2.trace = s.trace ∧
        (∀ c, cells[i]? = some c → r = c.2) ∧ (cells.length ≤ i → r = NULL)) ∧
      ∀ (t t2 : State) (p : Ptr) (j : Nat) (r2 : Ptr),
        list_remove_index t p j = some (t2, r2) → t2.trace = t.trace := by
  refine ⟨?_, fun t t2 p j r2 ht => (list_remove_index_trace ht).1⟩
  by_cases hi : i < cells.length
  · obtain ⟨s2, e, -, tr, -⟩ := list_remove_index_at h i hi
    refine ⟨s2, _, e, tr, ?_, fun hge => absurd hi (by omega)⟩
    intro c hc
    rw [List.getElem?_eq_getElem hi] at hc
    rw [Option.some.inj hc]
  · refine ⟨s, NULL, list_remove_index_invalid s list l i h.hlist (by rw [h.hsize]; omega), rfl,
      ?_, fun _ => rfl⟩
    intro c hc
    exact absurd (List.getElem?_eq_some.mp hc).1 hi

theorem C14_list_remove_index_no_destroy_witness :
    (∃ s2 r, list_remove_index scenario 1 1 = some (s2, r) ∧ s2.trace = scenario.trace ∧
        (∀ c, scenarioCells[1]? = some c → r = c.2) ∧ (scenarioCells.length ≤ 1 → r = NULL)) ∧
      ∀ (t t2 : State) (p : Ptr) (j : Nat) (r2 : Ptr),
        list_remove_index t p j = some (t2, r2) → t2.trace = t.trace :=
  C14_list_remove_index_no_destroy scenario_rep 1

/-- C15: the sole-entry special case of `list_remove_index` is redundant.  On
every well-formed list and for every index, the variant without the
`if (list->size == 1)` reset (`list_remove_index_general`) gives the same
result as the code: the same returned payload and the same state, that is the
same size and the same `next`/`prev` links.  In particular, when the list has a
single entry, the general relinking alone leaves the sentinel's `next` and
`prev` pointing to the sentinel. -/
theorem C15_sole_entry_case_redundant {s : State} {list : Ptr} {l : list_t}
    {cells : List (Ptr × Ptr)} (h : RingRep s list l cells) (i : Nat) :
    list_remove_index_general s list i = list_remove_index s list i ∧
      ∀ c, cells = [c] →
        ∃ s2, list_remove_index_general s list 0 = some (s2, c.2) ∧
          s2.nodes l.head = some ⟨NULL, l.head, l.head⟩ := by
  refine ⟨?_, ?_⟩
  · by_cases h1 : l.size = 1
    · have hlen : cells.length = 1 := by rw [← h.hsize]; exact h1
      obtain ⟨c, hc⟩ := List.length_eq_one.mp hlen
      subst hc
      by_cases hi : i = 0
      · subst hi; exact (remove_general_eq_sole h).1
      · rw [list_remove_index_general_invalid s list l i h.hlist (by omega),
          list_remove_index_invalid s list l i h.hlist (by omega)]
    · exact remove_general_eq_of_size_ne_one i h.hlist h1
  · intro c hc
    subst hc
    exact (remove_general_eq_sole h).2

theorem C15_sole_entry_case_redundant_witness :
    list_remove_index_general (soleEntry (some cmp_ptr) 100) 1 0
        = list_remove_index (soleEntry (some cmp_ptr) 100) 1 0 ∧
      ∀ c, [((11 : Ptr), (100 : Ptr))] = [c] →
        ∃ s2, list_remove_index_general (soleEntry (some cmp_ptr) 100) 1 0 = some (s2, c.2) ∧
          s2.nodes 10 = some ⟨NULL, 10, 10⟩ :=
  C15_sole_entry_case_redundant (soleEntry_rep (some cmp_ptr) 100) 0

/-- C16 (amended): on a well-formed list of `n` entries both traversals end
within `n + 1` loop tests (any fuel above `n` gives a result).  `list_destroy`
walks from the entry after the sentinel along `next` to the sentinel and
visits every entry exactly once: it frees every ring node, makes one callback
call per entry in front-to-back order when a destroy callback is configured,
and needs all `n + 1` tests.  `list_indexof`, when a comparison callback is
configured, compares a front part of the entries, in front-to-back order and
each once, and ends either at the sentinel (no match) or at the first
matching entry. -/
theorem C16_traversals_terminate {s : State} {list : Ptr} {l : list_t}
    {cells : List (Ptr × Ptr)} (h : RingRep s list l cells) (fuel : Nat)
    (hf : cells.length < fuel) :
    (∀ r, r ≠ NULL → s.refs r = some list →
        (∃ s2, list_destroy fuel s r = some s2 ∧
          (∀ a ∈ l.head :: cells.map Prod.fst, s2.nodes a = none) ∧
          s2.trace = s.trace ++ destroyCalls l cells) ∧
        ∀ f2, f2 ≤ cells.length → list_destroy f2 s r = none) ∧
      (∀ cmp d, l.compare_to = some cmp →
        ∃ s2 r k, list_indexof fuel s list d = some (s2, r) ∧ k ≤ cells.length ∧
          s2.trace = s.trace ++ (cells.take k).map (fun c => Event.compare c.2 d) ∧
          ((k = cells.length ∧ ∀ c ∈ cells, cmp c.2 d ≠ 0) ∨
            (∃ c, 0 < k ∧ cells[k - 1]? = some c ∧ cmp c.2 d = 0 ∧
              ∀ j x, j < k - 1 → cells[j]? = some x → cmp x.2 d ≠ 0))) := by
  refine ⟨?_, ?_⟩
  · intro r hr0 hr
    obtain ⟨s2, e, -, -, tr, -, -, nd⟩ := list_destroy_rep h r hr0 hr fuel hf
    refine ⟨⟨s2, e, ?_, tr⟩, fun f2 hf2 => list_destroy_short h r hr0 hr f2 hf2⟩
    intro a ha
    rw [nd a, if_pos ha]
  · intro cmp d hc
    obtain ⟨k, r, e, hk, hcase⟩ := list_indexof_scan h hc d fuel hf
    refine ⟨_, r, k, e, hk, rfl, ?_⟩
    rcases hcase with ⟨a1, -, a3⟩ | ⟨c, b1, b2, b3, -, b5⟩
    · exact Or.inl ⟨a1, a3⟩
    · exact Or.inr ⟨c, b1, b2, b3, b5⟩

theorem C16_traversals_terminate_witness :
    (∀ r, r ≠ NULL → scenario.refs r = some 1 →
        (∃ s2, list_destroy 4 scenario r = some s2 ∧
          (∀ a ∈ scenarioList.head :: scenarioCells.map Prod.fst, s2.nodes a = none) ∧
          s2.trace = scenario.trace ++ destroyCalls scenarioList scenarioCells) ∧
        ∀ f2, f2 ≤ scenarioCells.length → list_destroy f2 scenario r = none) ∧
      (∀ cmp d, scenarioList.compare_to = some cmp →
        ∃ s2 r k, list_indexof 4 scenario 1 d = some (s2, r) ∧ k ≤ scenarioCells.length ∧
          s2.trace = scenario.trace ++ (scenarioCells.take k).map (fun c => Event.compare c.2 d) ∧
          ((k = scenarioCells.length ∧ ∀ c ∈ scenarioCells, cmp c.2 d ≠ 0) ∨
            (∃ c, 0 < k ∧ scenarioCells[k - 1]? = some c ∧ cmp c.2 d = 0 ∧
              ∀ j x, j < k - 1 → scenarioCells[j]? = some x → cmp x.2 d ≠ 0))) :=
  C16_traversals_terminate scenario_rep 4 (by decide)

/-- C16 (counterexample): the single-entry list without a comparison callback
is well formed, yet `list_indexof` has no result on it whatever the fuel: at
the first entry the loop calls the absent callback instead of walking on to
the sentinel. -/
theorem C16_indexof_without_callback :
    RingRep (soleEntry none 100) 1 ⟨5, none, 1, 10⟩ [(11, 100)] ∧
      ∀ fuel, list_indexof fuel (soleEntry none 100) 1 100 = none := by
  refine ⟨soleEntry_rep none 100, ?_⟩
  intro fuel
  cases fuel <;> rfl

/-- C17 (amended): on a well-formed list of at most `INT_MAX` entries with a
comparison callback `cmp`, if `list_indexof` returns `i ≥ 0` for the query `d`,
then `list_remove_index` at index `i` succeeds and returns the payload `p` of
the entry at position `i`, `cmp p d = 0`, and no earlier position matches: `p`
is the first matching payload in front-to-back order. -/
theorem C17_indexof_remove_agree {s : State} {list : Ptr} {l : list_t}
    {cells : List (Ptr × Ptr)} {cmp : Ptr → Ptr → Int} (h : RingRep s list l cells)
    (hc : l.compare_to = some cmp) (d : Ptr) (hsz : (cells.length : Int) ≤ INT_MAX)
    (fuel : Nat) (hf : cells.length < fuel) (s1 : State) (i : Int)
    (hidx : list_indexof fuel s list d = some (s1, i)) (hi : 0 ≤ i) :
    ∃ s2 c, cells[i.toNat]? = some c ∧
      list_remove_index s1 list i.toNat = some (s2, c.2) ∧ cmp c.2 d = 0 ∧
      ∀ j x, j < i.toNat → cells[j]? = some x → cmp x.2 d ≠ 0 := by
  by_cases hex : ∃ c ∈ cells, cmp c.2 d = 0
  · obtain ⟨pre, c, post, e, hpre, hm⟩ := first_match_split (fun c => cmp c.2 d = 0) cells hex
    subst e
    have hlen : pre.length < (pre ++ c :: post).length := by simp
    have hw : wrap_int (pre.length : Int) = (pre.length : Int) :=
      wrap_int_of_range _ (Int.natCast_nonneg _) (by omega)
    rw [list_indexof_hit pre c post h hc d fuel (by omega) hpre hm, hw] at hidx
    simp only [Option.some.injEq, Prod.mk.injEq] at hidx
    obtain ⟨hs1, hi2⟩ := hidx
    subst hs1
    subst hi2
    obtain ⟨g1, g2⟩ := getElem?_split pre c post
    obtain ⟨s2, e2, -⟩ := list_remove_index_rep pre c post (h.logAll _)
    refine ⟨s2, c, by simpa using g1, by simpa using e2, hm, ?_⟩
    intro j x hj hx
    exact hpre x (g2 j x (by simpa using hj) hx)
  · have hall : ∀ c ∈ cells, cmp c.2 d ≠ 0 := fun c hc2 hz => hex ⟨c, hc2, hz⟩
    rw [list_indexof_miss h hc d fuel hf hall] at hidx
    simp only [Option.some.injEq, Prod.mk.injEq] at hidx
    omega

theorem C17_indexof_remove_agree_witness :
    ∃ s2 c, scenarioCells[((1 : Nat) : Int).toNat]? = some c ∧
      list_remove_index (scenario.logAll [Event.compare 300 200, Event.compare 200 200]) 1
        ((1 : Nat) : Int).toNat = some (s2, c.2) ∧
      cmp_ptr c.2 200 = 0 ∧
      ∀ j x, j < ((1 : Nat) : Int).toNat → scenarioCells[j]? = some x → cmp_ptr x.2 200 ≠ 0 :=
  C17_indexof_remove_agree scenario_rep rfl 200 (by decide) 4 (by decide)
    (scenario.logAll [Event.compare 300 200, Event.compare 200 200]) ((1 : Nat) : Int)
    (list_indexof_hit [(13, 300)] (12, 200) [(11, 100)] scenario_rep rfl 200 4 (by decide)
      (by intro x hx; simp at hx; subst hx; decide) (by decide))
    (by decide)

/-- C17 (counterexample): on the well-formed list built by `4294967297` adds,
whose only match for the query `9` is the last entry, `list_indexof` returns
`0`, and `list_remove_index` at index `0` then returns the payload `7`, which
does not compare equal to the query. -/
theorem C17_wrapped_index_removes_other_entry :
    ∃ s l, add_all bigInit 1 (bigAdds 4294967296) = some s ∧
      RingRep s 1 l (bigCells 4294967296) ∧ l.compare_to = some cmp_ptr ∧
      ∀ fuel, 4294967296 < fuel →
        ∃ s1 s2, list_indexof fuel s 1 9 = some (s1, 0) ∧
          list_remove_index s1 1 0 = some (s2, 7) ∧ cmp_ptr 7 9 ≠ 0 := by
  obtain ⟨s, l, e, r, hc, g⟩ := big_list_scan_remove 4294967296 (by norm_num) (by norm_num)
  refine ⟨s, l, e, r, hc, ?_⟩
  intro fuel hf
  obtain ⟨s1, s2, e1, e2⟩ := g fuel hf
  have hw : wrap_int ((4294967296 : Nat) : Int) = 0 := by decide
  rw [hw] at e1
  exact ⟨s1, s2, e1, e2, by decide⟩

/-- C18: on every well-formed list and for every index `i`, the value that
`list_remove_index` returns is `NULL` exactly when `i ≥ size` or the payload
stored at position `i` is `NULL`.  Consequently, when the entry at a valid
index holds a null payload, the call returns `NULL` although that entry has
been removed and `size` has been decremented. -/
theorem C18_list_remove_index_null_result {s : State} {list : Ptr} {l : list_t}
    {cells : List (Ptr × Ptr)} (h : RingRep s list l cells) (i : Nat) :
    ∃ s2 r, list_remove_index s list i = some (s2, r) ∧
      (r = NULL ↔ cells.length ≤ i ∨ ∃ c, cells[i]? = some c ∧ c.2 = NULL) ∧
      (∀ c, cells[i]? = some c → c.2 = NULL →
        r = NULL ∧ RingRep s2 list { l with size := l.size - 1 } (cells.eraseIdx i) ∧
          sizeOf s2 list = some (cells.length - 1)) := by
  by_cases hi : i < cells.length
  · obtain ⟨s2, e, r, -⟩ := list_remove_index_at h i hi
    have hget : cells[i]? = some cells[i] := List.getElem?_eq_getElem hi
    refine ⟨s2, _, e, ?_, ?_⟩
    · constructor
      · intro hr; exact Or.inr ⟨_, hget, hr⟩
      · rintro (hge | ⟨c, hc, hc0⟩)
        · omega
        · rw [hget] at hc; rw [Option.some.inj hc]; exact hc0
    · intro c hc hc0
      rw [hget] at hc
      refine ⟨by rw [Option.some.inj hc]; exact hc0, r, ?_⟩
      rw [r.sizeOf_eq, List.length_eraseIdx, if_pos hi]
  · refine ⟨s, NULL, list_remove_index_invalid s list l i h.hlist (by rw [h.hsize]; omega), ?_, ?_⟩
    · exact ⟨fun _ => Or.inl (by omega), fun _ => rfl⟩
    · intro c hc
      exact absurd (List.getElem?_eq_some.mp hc).1 hi

theorem C18_list_remove_index_null_result_witness :
    ∃ s2 r, list_remove_index (soleEntry none NULL) 1 0 = some (s2, r) ∧
      (r = NULL ↔ [((11 : Ptr), NULL)].length ≤ 0 ∨
        ∃ c, [((11 : Ptr), NULL)][0]? = some c ∧ c.2 = NULL) ∧
      (∀ c, [((11 : Ptr), NULL)][0]? = some c → c.2 = NULL →
        r = NULL ∧
          RingRep s2 1 { (⟨5, none, 1, 10⟩ : list_t) with size := 1 - 1 }
            ([((11 : Ptr), NULL)].eraseIdx 0) ∧
          sizeOf s2 1 = some ([((11 : Ptr), NULL)].length - 1)) :=
  C18_list_remove_index_null_result (soleEntry_rep none NULL) 0

/-- C19: `list_indexof` is read-only on the list.  On every well-formed list
with a comparison callback (a pure function, so it cannot modify the list) and
for every query, the call returns, whether or not a match is found, and leaves
the list structures, the nodes and the caller's variables as they were: the
same size, the same payload sequence, the same `next`/`prev` links.  Moreover
on any heap, whenever the call returns, those three heaps are unchanged. -/
theorem C19_list_indexof_read_only {s : State} {list : Ptr} {l : list_t}
    {cells : List (Ptr × Ptr)} {cmp : Ptr → Ptr → Int} (h : RingRep s list l cells)
    (hc : l.compare_to = some cmp) (d : Ptr) (fuel : Nat) (hf : cells.length < fuel) :
    (∃ s2 r, list_indexof fuel s list d = some (s2, r) ∧
        s2.lists = s.lists ∧ s2.nodes = s.nodes ∧ s2.refs = s.refs ∧
        RingRep s2 list l cells ∧ sizeOf s2 list = sizeOf s list ∧
        payloads s2 list = payloads s list) ∧
      ∀ (f : Nat) (t t2 : State) (p q : Ptr) (r2 : Int),
        list_indexof f t p q = some (t2, r2) →
          t2.lists = t.lists ∧ t2.nodes = t.nodes ∧ t2.refs = t.refs := by
  refine ⟨?_, fun f t t2 p q r2 ht => list_indexof_frame ht⟩
  obtain ⟨k, r, e, -⟩ := list_indexof_scan h hc d fuel hf
  have r2 := h.logAll ((cells.take k).map fun c => Event.compare c.2 d)
  exact ⟨_, r, e, rfl, rfl, rfl, r2, by rw [r2.sizeOf_eq, h.sizeOf_eq],
    by rw [r2.payloads_eq, h.payloads_eq]⟩

theorem C19_list_indexof_read_only_witness :
    (∃ s2 r, list_indexof 4 scenario 1 200 = some (s2, r) ∧
        s2.lists = scenario.lists ∧ s2.nodes = scenario.nodes ∧ s2.refs = scenario.refs ∧
        RingRep s2 1 scenarioList scenarioCells ∧ sizeOf s2 1 = sizeOf scenario 1 ∧
        payloads s2 1 = payloads scenario 1) ∧
      ∀ (f : Nat) (t t2 : State) (p q : Ptr) (r2 : Int),
        list_indexof f t p q = some (t2, r2) →
          t2.lists = t.lists ∧ t2.nodes = t.nodes ∧ t2.refs = t.refs :=
  C19_list_indexof_read_only scenario_rep rfl 200 4 (by decide)

end Lab
